import Mathlib

/-!
Verification of the GetSTRM reconciliation tool (GetSTRM.go).

Strings are modelled as lists of characters (`Str`).  The Go string
primitives used by the program (`strings.ReplaceAll`, `strings.TrimSpace`,
`strings.TrimRight`, `strings.ToLower` restricted to ASCII, `strings.SplitN`
together with `regexp.FindString` for the fixed pattern `S\d{1,2}E\d{1,3}`)
are embedded as executable functions below, and the directory tree operated
on by the tool is modelled as a rose tree of named entries.
-/

namespace GetSTRM

abbrev Str := List Char

/-- ASCII lower-casing of one character (`strings.ToLower` on the ASCII
subset actually exercised by the program). -/
def lowerChar (c : Char) : Char :=
  if 'A' ≤ c ∧ c ≤ 'Z' then Char.ofNat (c.toNat + 32) else c

def lowerStr (s : Str) : Str := s.map lowerChar

/-- The white-space class of Go's `unicode.IsSpace`, used by
`strings.TrimSpace`. -/
def isGoSpace (c : Char) : Bool :=
  c.toNat == 9 || c.toNat == 10 || c.toNat == 11 || c.toNat == 12 ||
  c.toNat == 13 || c.toNat == 32 || c.toNat == 0x85 || c.toNat == 0xA0 ||
  c.toNat == 0x1680 || (0x2000 ≤ c.toNat && c.toNat ≤ 0x200A) ||
  c.toNat == 0x2028 || c.toNat == 0x2029 || c.toNat == 0x202F ||
  c.toNat == 0x205F || c.toNat == 0x3000

/-- Drop the longest suffix of characters satisfying `p`
(`strings.TrimRight` with a cut-set). -/
def dropEnd (p : Char → Bool) (s : Str) : Str :=
  (s.reverse.dropWhile p).reverse

/-- `strings.TrimSpace`. -/
def trimSpace (s : Str) : Str :=
  dropEnd isGoSpace (s.dropWhile isGoSpace)

/-- `strings.ReplaceAll(s, "...", "")` (left-to-right, non-overlapping). -/
def stripE3 : Str → Str
  | '.' :: '.' :: '.' :: r => stripE3 r
  | c :: r => c :: stripE3 r
  | [] => []

/-- `strings.ReplaceAll(s, "..", "")` (left-to-right, non-overlapping). -/
def stripE2 : Str → Str
  | '.' :: '.' :: r => stripE2 r
  | c :: r => c :: stripE2 r
  | [] => []

/-- `strings.ReplaceAll(s, "..", ".")` (left-to-right, non-overlapping). -/
def dotdotToDot : Str → Str
  | '.' :: '.' :: r => '.' :: dotdotToDot r
  | c :: r => c :: dotdotToDot r
  | [] => []

/-- `normalizeName` from GetSTRM.go: collapse "..." then ".." to nothing,
turn the remaining periods into spaces, and trim surrounding whitespace. -/
def normalizeName (s : Str) : Str :=
  trimSpace ((stripE2 (stripE3 s)).map (fun c => if c = '.' then ' ' else c))

/-- Membership in the forbidden-character class of `sanitizeFileName`
(the Go regexp character class; codes spelled numerically so that the
quotation-mark, brace and backquote members stay readable as data):
60 `<`, 62 `>`, 58 colon, 34 double quote, 47 slash, 92 backslash,
124 pipe, 63 question mark, 42 star, 91/93 square brackets, 35 hash,
37 percent, 38 ampersand, 123/125 braces, 36 dollar, 33 bang,
39 apostrophe, 43 plus, 61 equals, 64 at, 126 tilde, 96 backquote. -/
def isInvalidChar (c : Char) : Bool :=
  [60, 62, 58, 34, 47, 92, 124, 63, 42, 91, 93, 35, 37, 38, 123, 125,
   36, 33, 39, 43, 61, 64, 126, 96].contains c.toNat

/-- `sanitizeFileName` from GetSTRM.go: replace every forbidden character
with an underscore, trim whitespace, strip trailing `_`/`.`/`:`, collapse
".." to ".", replace remaining periods with underscores, trim trailing
spaces. -/
def sanitizeFileName (s : Str) : Str :=
  let s0 := s.map (fun c => if isInvalidChar c then '_' else c)
  let s1 := trimSpace s0
  let s2 := dropEnd (fun c => c = '_' || c = '.' || c = ':') s1
  let s3 := dotdotToDot s2
  let s4 := s3.map (fun c => if c = '.' then '_' else c)
  dropEnd (fun c => c = ' ') s4

/-- The two-stage transform the program applies to every display name
before it reaches a path: `sanitizeFileName(normalizeName(x))`. -/
def sanName (s : Str) : Str := sanitizeFileName (normalizeName s)

/-! ### The season/episode classifier

`processStreams` classifies a record as a TV episode iff the Go regexp
`S\d{1,2}E\d{1,3}` matches its display name; `processTVShow` then takes the
first (leftmost) match and splits the name around it.  Go's regexp engine
uses leftmost-first (Perl) semantics with greedy quantifiers, which for this
pattern means: at the leftmost feasible position, prefer a two-digit season
over a one-digit one, and the longest run (up to 3) of episode digits. -/

/-- Match `E\d{1,3}` (greedy) at the head of the string, returning the
matched characters. -/
def matchE : Str → Option Str
  | 'E' :: a :: b :: c :: _ =>
      if a.isDigit then
        if b.isDigit then
          if c.isDigit then some ['E', a, b, c] else some ['E', a, b]
        else some ['E', a]
      else none
  | 'E' :: a :: b :: [] =>
      if a.isDigit then
        if b.isDigit then some ['E', a, b] else some ['E', a]
      else none
  | 'E' :: a :: [] => if a.isDigit then some ['E', a] else none
  | _ => none

/-- Match `S\d{1,2}E\d{1,3}` at the head of the string (two season digits
preferred, backtracking to one), returning the matched characters. -/
def matchMarker : Str → Option Str
  | 'S' :: a :: rest =>
      if a.isDigit then
        match rest with
        | b :: rest2 =>
            if b.isDigit then
              match matchE rest2 with
              | some e => some ('S' :: a :: b :: e)
              | none => (matchE (b :: rest2)).map (fun e => 'S' :: a :: e)
            else (matchE (b :: rest2)).map (fun e => 'S' :: a :: e)
        | [] => none
      else none
  | _ => none

/-- Leftmost match of `S\d{1,2}E\d{1,3}` in a string, returning the text
before the match together with the matched marker.  This simultaneously
models `tvShowRegex.FindString` (the marker) and
`strings.SplitN(name, marker, 2)[0]` (the text before it): the matched
marker itself satisfies the pattern, so its first occurrence as a substring
is exactly the leftmost match position. -/
def findMarker : Str → Option (Str × Str)
  | [] => none
  | c :: r =>
      match matchMarker (c :: r) with
      | some m => some ([], m)
      | none => (findMarker r).map (fun pm => (c :: pm.1, pm.2))

/-- `tvShowRegex.MatchString`. -/
def isTVShow (name : Str) : Bool := (findMarker name).isSome

/-! ### The directory tree model

The managed area of the filesystem is the contents of the two root
directories (which exist and are directories throughout each claim).  A
directory listing is a first-order tree `FS`: `nil` is the empty listing,
and each other constructor is one entry (a file with its content, or a
subdirectory with its own listing) followed by the rest of the listing, in
directory-enumeration order (`ReadDir`/`WalkDir` enumerate lexically; the
stored order stands for that order).  Paths below a root are lists of
segments. -/

inductive FS where
  | nil : FS
  | file (name content : Str) (rest : FS)
  | dir (name : Str) (children : FS) (rest : FS)
deriving DecidableEq

def FS.isNil : FS → Bool
  | .nil => true
  | _ => false

/-- A node view: what sits at the end of a path. -/
inductive Node where
  | fileN (content : Str)
  | dirN (children : FS)
deriving DecidableEq

/-- Look up the node at a segment path (the empty path is the directory
itself). -/
def getNode : FS → List Str → Option Node
  | fs, [] => some (.dirN fs)
  | .nil, _ :: _ => none
  | .file m c r, n :: rest =>
      if m = n then (if rest.isEmpty then some (.fileN c) else none)
      else getNode r (n :: rest)
  | .dir m cs r, n :: rest =>
      if m = n then getNode cs rest else getNode r (n :: rest)

/-- Result of `os.Stat` on a path, distinguishing the `ENOENT` error (the
only one `os.IsNotExist` recognises) from `ENOTDIR` (a file sitting on a
proper prefix of the path). -/
inductive StatR where
  | found (isDir : Bool)
  | missing
  | notDir
deriving DecidableEq

def statD : FS → List Str → StatR
  | _, [] => .found true
  | .nil, _ :: _ => .missing
  | .file m _ r, n :: rest =>
      if m = n then (if rest.isEmpty then .found false else .notDir)
      else statD r (n :: rest)
  | .dir m cs r, n :: rest =>
      if m = n then statD cs rest else statD r (n :: rest)

/-- A fresh chain of nested directories (what `os.MkdirAll` creates below
the deepest existing directory). -/
def mkChain : List Str → FS
  | [] => .nil
  | n :: rest => .dir n (mkChain rest) .nil

/-- `os.MkdirAll`: create every missing directory along the path; a file
sitting on the path makes it fail, leaving everything from that point
unchanged. -/
def mkdirAll : FS → List Str → FS
  | fs, [] => fs
  | .nil, n :: rest => .dir n (mkChain rest) .nil
  | .file m c r, n :: rest =>
      if m = n then .file m c r else .file m c (mkdirAll r (n :: rest))
  | .dir m cs r, n :: rest =>
      if m = n then .dir m (mkdirAll cs rest) r
      else .dir m cs (mkdirAll r (n :: rest))

/-- Create-or-truncate the file `fname` in this directory
(`createOrUpdateStrmFile` at its parent): overwrite an existing file,
append a new one at the end of the listing, fail silently when a directory
of that name is in the way. -/
def putHere (fname content : Str) : FS → FS
  | .nil => .file fname content .nil
  | .file m c r =>
      if m = fname then .file m content r else .file m c (putHere fname content r)
  | .dir m cs r =>
      if m = fname then .dir m cs r else .dir m cs (putHere fname content r)

/-- Create-or-truncate the file `fname` inside the directory at `segs`;
fails silently (tree unchanged) when the parent directory is missing or a
file blocks the path. -/
def putFile (fname content : Str) : FS → List Str → FS
  | fs, [] => putHere fname content fs
  | .nil, _ :: _ => .nil
  | .file m c r, n :: rest =>
      if m = n then .file m c r else .file m c (putFile fname content r (n :: rest))
  | .dir m cs r, n :: rest =>
      if m = n then .dir m (putFile fname content cs rest) r
      else .dir m cs (putFile fname content r (n :: rest))

/-- `filepath.Join` of two components (components produced by the program
contain no separators or dot segments, so `Clean` is the identity on them;
an empty component is skipped, as `Join` skips it). -/
def join2 (a b : Str) : Str :=
  if a = [] then b else if b = [] then a else a ++ '/' :: b

def joinSegs (root : Str) (segs : List Str) : Str := segs.foldl join2 root

/-- Keep only non-empty path segments (`filepath.Join` drops empty
components, so an empty sanitized name simply vanishes from the path). -/
def segsOf (l : List Str) : List Str := l.filter (fun s => s ≠ [])

/-- `filepath.Ext(name) == ".strm"`, equivalently: `name` ends in ".strm". -/
def isStrmName (n : Str) : Bool := ".strm".toList.isSuffixOf n

/-! ### The pruning walk (`removeEmptyDirs`)

`removeEmptyDirs` walks a root with `filepath.WalkDir`.  On visiting a
directory it reads its entries and loops over them: before each entry it
checks the per-walk deletion counter against the limit (returning `SkipDir`
when reached, which abandons that directory's remaining entries and its
subdirectories, but not its already-deleted files or its siblings); a
non-directory entry with the `.strm` extension whose full path, lower-cased,
is not in the lower-cased keep set is removed and counted.  After the loop,
a now-empty non-root directory is removed (counted separately, not against
the deletion counter) and skipped.  Otherwise the walk descends into the
surviving entries. -/

/-- Would the walk's per-directory loop delete this file name at this
directory path? -/
def staleName (ci : List Str) (p n : Str) : Bool :=
  isStrmName n && !(decide (lowerStr (join2 p n) ∈ ci))

/-- An all-true mask over a listing (entries the loop never reached). -/
def trueMask : FS → List Bool
  | .nil => []
  | .file _ _ r => true :: trueMask r
  | .dir _ _ r => true :: trueMask r

/-- Result of the per-directory entry loop. -/
structure LoopRes where
  mask : List Bool
  del : Nat
  rf : Nat
  skipped : Bool

/-- Result of (part of) a pruning walk. -/
structure PruneRes where
  out : FS
  del : Nat
  rf : Nat
  rd : Nat

/-- The per-directory entry loop of the walk callback: returns the
keep-mask over the entries, the updated deletion counter, the number of
files removed, and whether the loop aborted with `SkipDir` because the
counter had reached the limit. -/
def fileLoop (ci : List Str) (limit : Int) (p : Str) : FS → Nat → LoopRes
  | .nil, del => ⟨[], del, 0, false⟩
  | .file n c fs, del =>
      if (del : Int) ≥ limit then ⟨trueMask (.file n c fs), del, 0, true⟩
      else if staleName ci p n then
        let r := fileLoop ci limit p fs (del + 1)
        ⟨false :: r.mask, r.del, r.rf + 1, r.skipped⟩
      else
        let r := fileLoop ci limit p fs del
        ⟨true :: r.mask, r.del, r.rf, r.skipped⟩
  | .dir n cs fs, del =>
      if (del : Int) ≥ limit then ⟨trueMask (.dir n cs fs), del, 0, true⟩
      else
        let r := fileLoop ci limit p fs del
        ⟨true :: r.mask, r.del, r.rf, r.skipped⟩

/-- Drop the entries the loop deleted (mask position false); a missing mask
position means the entry was never reached and stays. -/
def applyMask : FS → List Bool → FS
  | fs, [] => fs
  | .nil, _ :: _ => .nil
  | .file n c r, b :: bs => if b then .file n c (applyMask r bs) else applyMask r bs
  | .dir n cs r, b :: bs => if b then .dir n cs (applyMask r bs) else applyMask r bs

/-- Depth-first visit of a directory's entries after its own loop ran
(mask given): files pass unchanged; each subdirectory runs its own entry
loop, its empty check (removal when empty, counted but not against the
deletion counter), and — unless skipped or removed — the visit of its own
entries, the deletion counter threaded through in walk order. -/
def pruneL (ci : List Str) (limit : Int) : Str → FS → List Bool → Nat → PruneRes
  | _, .nil, _, del => ⟨.nil, del, 0, 0⟩
  | p, .file n c r, mask, del =>
      if mask.headD true then
        let q := pruneL ci limit p r mask.tail del
        ⟨.file n c q.out, q.del, q.rf, q.rd⟩
      else
        pruneL ci limit p r mask.tail del
  | p, .dir n cs r, mask, del =>
      if mask.headD true then
        let fl := fileLoop ci limit (join2 p n) cs del
        let cs1 := applyMask cs fl.mask
        if fl.skipped then
          let q := pruneL ci limit p r mask.tail fl.del
          ⟨.dir n cs1 q.out, q.del, fl.rf + q.rf, q.rd⟩
        else if cs1.isNil then
          let q := pruneL ci limit p r mask.tail fl.del
          ⟨q.out, q.del, fl.rf + q.rf, 1 + q.rd⟩
        else
          let qc := pruneL ci limit (join2 p n) cs fl.mask fl.del
          let q := pruneL ci limit p r mask.tail qc.del
          ⟨.dir n qc.out q.out, q.del, fl.rf + qc.rf + q.rf, qc.rd + q.rd⟩
      else
        pruneL ci limit p r mask.tail del

/-- One pruning walk over one root (`removeEmptyDirs(rootDir, …)`): the
root's own entry loop with a fresh deletion counter, then — the root
itself is never removed — the visit of its entries. -/
def removeEmptyDirs (ci : List Str) (limit : Int) (rootPath : Str) (cs : FS) :
    PruneRes :=
  let fl := fileLoop ci limit rootPath cs 0
  if fl.skipped then ⟨applyMask cs fl.mask, fl.del, fl.rf, 0⟩
  else
    let q := pruneL ci limit rootPath cs fl.mask fl.del
    ⟨q.out, q.del, fl.rf + q.rf, q.rd⟩

/-! ### The materializer (`processStreams`, `processTVShow`, `processMovie`) -/

structure Cfg where
  tvRoot : Str
  moviesRoot : Str
  useGroup : Int
  defaultGroup : Str
  excludeGroups : List Str
  includeGroups : List Str
  limitDelete : Int

structure Stream where
  url : Str
  tvgName : Str
  groupTitle : Str

structure MState where
  tv : FS
  movies : FS
  keep : List Str
  createdDirs : Nat
  keptStrm : Nat

/-- The `os.Stat`-guarded `os.MkdirAll` of the per-record processing:
directories are created (and the creation counted) only when `Stat` failed
with `ENOENT`; in that case nothing blocks the path, so the creation
succeeds. -/
def ensureDir (fs : FS) (segs : List Str) : FS × Bool :=
  match statD fs segs with
  | .missing => (mkdirAll fs segs, true)
  | _ => (fs, false)

def processTVShow (cfg : Cfg) (groupTitle : Str) (s : Stream) (st : MState) :
    MState :=
  match findMarker s.tvgName with
  | none => st
  | some (pre, marker) =>
      let showName := sanitizeFileName (normalizeName pre)
      let season := marker.take 3
      let segs := segsOf ((if cfg.useGroup = 1 then [groupTitle] else []) ++
        [showName, season])
      let (tv1, created) := ensureDir st.tv segs
      let fname := sanName s.tvgName ++ ".strm".toList
      let fpath := joinSegs cfg.tvRoot (segs ++ [fname])
      let tv2 := putFile fname s.url tv1 segs
      { st with
        tv := tv2,
        keep := fpath :: st.keep,
        createdDirs := st.createdDirs + (if created then 1 else 0),
        keptStrm := st.keptStrm + 1 }

def processMovie (cfg : Cfg) (groupTitle : Str) (s : Stream) (st : MState) :
    MState :=
  let mname := sanName s.tvgName
  let segs := segsOf ((if cfg.useGroup = 1 then [groupTitle] else []) ++ [mname])
  let (mv1, created) := ensureDir st.movies segs
  let fname := mname ++ ".strm".toList
  let fpath := joinSegs cfg.moviesRoot (segs ++ [fname])
  let mv2 := putFile fname s.url mv1 segs
  { st with
    movies := mv2,
    keep := fpath :: st.keep,
    createdDirs := st.createdDirs + (if created then 1 else 0),
    keptStrm := st.keptStrm + 1 }

/-- `contains` from GetSTRM.go: case-insensitive, whitespace-trimmed
membership (`strings.EqualFold` modelled as equality after lower-casing). -/
def containsFold (slice : List Str) (item : Str) : Bool :=
  let it := lowerStr (trimSpace item)
  slice.any (fun s => lowerStr (trimSpace s) == it)

/-- The normalized group title of a record: trimmed and lower-cased, the
configured default when empty. -/
def groupOf (cfg : Cfg) (s : Stream) : Str :=
  let g := lowerStr (trimSpace s.groupTitle)
  if g = [] then cfg.defaultGroup else g

/-- One iteration of the `processStreams` loop: group filtering, then
classification and materialization. -/
def processStream (cfg : Cfg) (st : MState) (s : Stream) : MState :=
  let g := groupOf cfg s
  if containsFold cfg.excludeGroups g then st
  else if !cfg.includeGroups.isEmpty && !containsFold cfg.includeGroups g then st
  else if isTVShow s.tvgName then processTVShow cfg g s st
  else processMovie cfg g s st

def processStreams (cfg : Cfg) (streams : List Stream) (tv movies : FS) :
    MState :=
  streams.foldl (processStream cfg)
    { tv := tv, movies := movies, keep := [], createdDirs := 0, keptStrm := 0 }

/-! ### One full reconciliation run -/

structure RunResult where
  tv : FS
  movies : FS
  keep : List Str
  createdDirs : Nat
  keptStrm : Nat
  removedStrm : Nat
  removedEmptyDirs : Nat
  delTv : Nat
  delMovies : Nat

/-- One run of the tool on the managed trees: materialize the whole catalog
(building the keep set), then prune the television root and the movies
root, each walk with a fresh deletion counter (the counter is local to one
`removeEmptyDirs` call). -/
def runOnce (cfg : Cfg) (streams : List Stream) (tv movies : FS) : RunResult :=
  let m := processStreams cfg streams tv movies
  let ci := m.keep.map lowerStr
  let p1 := removeEmptyDirs ci cfg.limitDelete cfg.tvRoot m.tv
  let p2 := removeEmptyDirs ci cfg.limitDelete cfg.moviesRoot m.movies
  { tv := p1.out, movies := p2.out, keep := m.keep,
    createdDirs := m.createdDirs, keptStrm := m.keptStrm,
    removedStrm := p1.rf + p2.rf, removedEmptyDirs := p1.rd + p2.rd,
    delTv := p1.del, delMovies := p2.del }

/-! ### Derived classifier / path-builder views

`processTVShow` and `processMovie` compute paths purely from the display
name, the (normalized) group title and the configuration; these functions
are that computation factored out verbatim (same joins, same sanitization,
same season slice). -/

/-- The canonical show/movie name of a record: the sanitized text before
the first season/episode marker for an episode, the sanitized whole name
for a movie. -/
def canonicalOf (name : Str) : Str :=
  match findMarker name with
  | some (pre, _) => sanitizeFileName (normalizeName pre)
  | none => sanName name

/-- The extracted season of a television episode: the first three
characters of the matched marker. -/
def seasonOf (name : Str) : Option Str :=
  (findMarker name).map (fun pm => pm.2.take 3)

/-- The target directory of a record (`showDir` / `movieDir`). -/
def targetDirOf (cfg : Cfg) (group name : Str) : Str :=
  match findMarker name with
  | some (pre, marker) =>
      joinSegs cfg.tvRoot ((if cfg.useGroup = 1 then [group] else []) ++
        [sanitizeFileName (normalizeName pre), marker.take 3])
  | none =>
      joinSegs cfg.moviesRoot ((if cfg.useGroup = 1 then [group] else []) ++
        [sanName name])

/-- The target stream-file path of a record (`strmFilePath`). -/
def targetFileOf (cfg : Cfg) (group name : Str) : Str :=
  join2 (targetDirOf cfg group name) (sanName name ++ ".strm".toList)

/-- Format "Sxx": the letter `S` followed by exactly two digits. -/
def isSxxStr : Str → Bool
  | ['S', a, b] => a.isDigit && b.isDigit
  | _ => false

/-- Number of stale stream files (the ones the walk would delete) in a
listing rooted at path `p`. -/
def staleCount (ci : List Str) : Str → FS → Nat
  | _, .nil => 0
  | p, .file n _ r => (if staleName ci p n then 1 else 0) + staleCount ci p r
  | p, .dir n cs r => staleCount ci (join2 p n) cs + staleCount ci p r

/-- Every stream file of the listing is in the keep set (no stale file). -/
def allKept (ci : List Str) : Str → FS → Bool
  | _, .nil => true
  | p, .file n _ r => !staleName ci p n && allKept ci p r
  | p, .dir n cs r => allKept ci (join2 p n) cs && allKept ci p r

/-- Stale stream files among the direct file entries only (what one
directory's own loop can delete). -/
def topStale (ci : List Str) (p : Str) : FS → Nat
  | .nil => 0
  | .file n _ r => (if staleName ci p n then 1 else 0) + topStale ci p r
  | .dir _ _ r => topStale ci p r

/-- Stale stream files inside the direct subdirectories (what the descent
can delete). -/
def dirStale (ci : List Str) (p : Str) : FS → Nat
  | .nil => 0
  | .file _ _ r => dirStale ci p r
  | .dir n cs r => staleCount ci (join2 p n) cs + dirStale ci p r

/-- Every directory position of the listing is mask-true (the entry loop
never deletes directories, so its masks all satisfy this). -/
def dirsKept : FS → List Bool → Bool
  | .nil, _ => true
  | .file _ _ r, mask => dirsKept r mask.tail
  | .dir _ _ r, mask => mask.headD true && dirsKept r mask.tail

/-- A mask is honest for a listing when every mask-false position is a
stale file (the entry loop only ever marks stale files for deletion, and
never directories). -/
def maskHonest (ci : List Str) (p : Str) : FS → List Bool → Bool
  | .nil, _ => true
  | .file n _ r, mask =>
      (mask.headD true || staleName ci p n) && maskHonest ci p r mask.tail
  | .dir _ _ r, mask => mask.headD true && maskHonest ci p r mask.tail

/-- The walk callback's whole action on one visited non-root directory
with entries `cs` at path `dp`: its entry loop, its empty check (`out` is
`none` when the directory is removed), and, unless skipped or removed, the
descent into its entries. -/
structure VisitRes where
  out : Option FS
  del : Nat
  rf : Nat
  rd : Nat

def visitDir (ci : List Str) (limit : Int) (dp : Str) (cs : FS) (del : Nat) :
    VisitRes :=
  let fl := fileLoop ci limit dp cs del
  let cs1 := applyMask cs fl.mask
  if fl.skipped then ⟨some cs1, fl.del, fl.rf, 0⟩
  else if cs1.isNil then ⟨none, fl.del, fl.rf, 1⟩
  else
    let q := pruneL ci limit dp cs fl.mask fl.del
    ⟨some q.out, q.del, fl.rf + q.rf, q.rd⟩

/-! ### Concrete data of the end-to-end scenario (spec § 8) -/

def c1cfg : Cfg :=
  { tvRoot := "tvshows".toList, moviesRoot := "movies".toList, useGroup := 0,
    defaultGroup := "Dummy".toList, excludeGroups := [], includeGroups := [],
    limitDelete := 25 }

def c1streams : List Stream :=
  [ { url := "http://x/a.mkv".toList, tvgName := "Show.S01E01".toList,
      groupTitle := [] },
    { url := "http://x/b.avi".toList, tvgName := "Old.Movie".toList,
      groupTitle := [] } ]

/-- The pre-existing movies tree: a stale `movies/Stale_Movie/Stale_Movie.strm`. -/
def c1movies : FS :=
  FS.dir "Stale_Movie".toList
    (FS.file "Stale_Movie.strm".toList "http://x/old.mkv".toList FS.nil) FS.nil

def c1run : RunResult := runOnce c1cfg c1streams FS.nil c1movies

/-! ### Per-record views used by the idempotence analysis

With group-based structuring disabled (`useGroup ≠ 1`) the directory
segments and the file name of a record are pure functions of the
configuration and the record (`processTVShow`/`processMovie` compute
exactly these). -/

/-- The target directory segments of a record below its root
(grouping disabled). -/
def recSegs (s : Stream) : List Str :=
  match findMarker s.tvgName with
  | some (pre, marker) =>
      segsOf [sanitizeFileName (normalizeName pre), marker.take 3]
  | none => segsOf [sanName s.tvgName]

/-- The target stream-file name of a record. -/
def recFname (s : Stream) : Str := sanName s.tvgName ++ ".strm".toList

/-- Is the record rejected by the group include/exclude filter? -/
def recFiltered (cfg : Cfg) (s : Stream) : Bool :=
  containsFold cfg.excludeGroups (groupOf cfg s) ||
  (!cfg.includeGroups.isEmpty && !containsFold cfg.includeGroups (groupOf cfg s))

/-- The root (as a path string) a record materializes under. -/
def recRoot (cfg : Cfg) (s : Stream) : Str :=
  if isTVShow s.tvgName then cfg.tvRoot else cfg.moviesRoot

/-- The keep-set entries one record contributes (grouping disabled). -/
def keepDelta (cfg : Cfg) (s : Stream) : List Str :=
  if recFiltered cfg s then []
  else [joinSegs (recRoot cfg s) (recSegs s ++ [recFname s])]

/-- The whole keep set of a run, as the fold builds it (grouping
disabled): a pure function of the configuration and the catalog. -/
def keepList (cfg : Cfg) : List Stream → List Str
  | [] => []
  | s :: rest => keepList cfg rest ++ keepDelta cfg s

/-- Does the listing contain a direct subdirectory entry? -/
def hasDirChild : FS → Bool
  | .nil => false
  | .file _ _ r => hasDirChild r
  | .dir _ _ _ => true



/-! ### Analysis views for the idempotence claim -/

/-- A pre-existing movies tree of nested empty directories
(`movies/a/b`). -/
def c2movies : FS :=
  FS.dir "a".toList (FS.dir "b".toList FS.nil FS.nil) FS.nil

/-- One tree extends another: every file node stays a file node (possibly
overwritten), every directory node stays a directory node, and a directory
that has a subdirectory entry keeps one.  The materializer only ever adds
entries, so each of its steps extends the tree. -/
def extendsF (fs fs2 : FS) : Prop :=
  (∀ path c, getNode fs path = some (Node.fileN c) →
     ∃ c2, getNode fs2 path = some (Node.fileN c2)) ∧
  (∀ path ds, getNode fs path = some (Node.dirN ds) →
     ∃ ds2, getNode fs2 path = some (Node.dirN ds2) ∧
       (hasDirChild ds = true → hasDirChild ds2 = true))

/-- Why a record's target path cannot have gone missing by the time of a
second run: its stream file sits at the full target path and is protected
by the keep set; or a non-stream file sits on the target directory path
(the walk deletes only `.strm` files); or the target directory exists and
has a subdirectory entry (e.g. a directory named like the stream file
blocked the write), and the walk removes only childless directories. -/
def recInv (ci : List Str) (root : Str) (segs : List Str) (fname : Str)
    (fs : FS) : Prop :=
  (∃ c, getNode fs (segs ++ [fname]) = some (Node.fileN c) ∧
     lowerStr (joinSegs root (segs ++ [fname])) ∈ ci) ∨
  (∃ q g t c, segs = q ++ g :: t ∧ isStrmName g = false ∧
     getNode fs (q ++ [g]) = some (Node.fileN c)) ∨
  (∃ ds, getNode fs segs = some (Node.dirN ds) ∧ hasDirChild ds = true)


/-! ## Lemmas and theorems -/

lemma head_dropWhile_false (p : Char → Bool) (l : Str) {c : Char} {r : Str}
    (h : l.dropWhile p = c :: r) : p c = false := by
  induction l with
  | nil => simp [List.dropWhile] at h
  | cons a l ih =>
      rw [List.dropWhile_cons] at h
      split at h
      · exact ih h
      · rename_i hp
        injection h with h1 h2
        subst h1
        simpa using hp

lemma dropWhile_eq_self_of (p : Char → Bool) (l : Str)
    (h : ∀ c r, l = c :: r → p c = false) : l.dropWhile p = l := by
  cases l with
  | nil => rfl
  | cons a l => rw [List.dropWhile_cons]; simp [h a l rfl]

lemma dropEnd_isPfx (p : Char → Bool) (l : Str) : dropEnd p l <+: l := by
  unfold dropEnd
  rw [← List.reverse_suffix, List.reverse_reverse]
  exact List.dropWhile_suffix p

lemma mem_dropEnd {p : Char → Bool} {a : Char} {l : Str}
    (h : a ∈ dropEnd p l) : a ∈ l :=
  (dropEnd_isPfx p l).mem h

lemma mem_trimSpace {a : Char} {l : Str} (h : a ∈ trimSpace l) : a ∈ l :=
  (List.dropWhile_sublist _).mem (mem_dropEnd h)

lemma dropEnd_rev (p : Char → Bool) (l : Str) :
    (dropEnd p l).reverse = l.reverse.dropWhile p := by
  unfold dropEnd; rw [List.reverse_reverse]

lemma getLast?_dropEnd_false (p : Char → Bool) (l : Str) {c : Char}
    (h : (dropEnd p l).getLast? = some c) : p c = false := by
  rw [List.getLast?_eq_head?_reverse, dropEnd_rev] at h
  cases hE : l.reverse.dropWhile p with
  | nil => rw [hE] at h; simp at h
  | cons d r =>
      rw [hE] at h
      simp at h
      subst h
      exact head_dropWhile_false p _ hE

lemma dropEnd_eq_self_of (p : Char → Bool) (l : Str)
    (h : ∀ c, l.getLast? = some c → p c = false) : dropEnd p l = l := by
  unfold dropEnd
  have h2 : l.reverse.dropWhile p = l.reverse := by
    apply dropWhile_eq_self_of
    intro c r he
    apply h
    rw [List.getLast?_eq_head?_reverse, he]; rfl
  rw [h2, List.reverse_reverse]

lemma pfx_head {l m : Str} {c : Char} {r : Str} (h : l <+: m)
    (e : l = c :: r) : ∃ r2, m = c :: r2 := by
  obtain ⟨t, rfl⟩ := h
  subst e
  exact ⟨r ++ t, rfl⟩

lemma trimSpace_head_false {l : Str} {c : Char} {r : Str}
    (h : trimSpace l = c :: r) : isGoSpace c = false := by
  unfold trimSpace at h
  obtain ⟨r2, h2⟩ := pfx_head (dropEnd_isPfx _ _) h
  exact head_dropWhile_false _ _ h2

lemma trimSpace_getLast_false {l : Str} {c : Char}
    (h : (trimSpace l).getLast? = some c) : isGoSpace c = false := by
  unfold trimSpace at h
  exact getLast?_dropEnd_false _ _ h

lemma trimSpace_eq_self (l : Str)
    (hh : ∀ c r, l = c :: r → isGoSpace c = false)
    (hl : ∀ c, l.getLast? = some c → isGoSpace c = false) :
    trimSpace l = l := by
  unfold trimSpace
  rw [dropWhile_eq_self_of _ _ hh, dropEnd_eq_self_of _ _ hl]

lemma trimSpace_trimSpace (l : Str) :
    trimSpace (trimSpace l) = trimSpace l :=
  trimSpace_eq_self _ (fun _ _ h => trimSpace_head_false h)
    (fun _ h => trimSpace_getLast_false h)

lemma map_eq_self_of {f : Char → Char} {l : Str} (h : ∀ a ∈ l, f a = a) :
    l.map f = l := by
  induction l with
  | nil => rfl
  | cons a l ih => simp [h a (by simp), ih (fun b hb => h b (by simp [hb]))]



lemma mem_stripE3 {a : Char} (s : Str) (h : a ∈ stripE3 s) : a ∈ s := by
  induction s using stripE3.induct with
  | case1 r ih =>
      rw [show stripE3 ('.' :: '.' :: '.' :: r) = stripE3 r from rfl] at h
      simp [ih h]
  | case2 c r hne ih =>
      rw [stripE3.eq_2 c r hne] at h
      rcases List.mem_cons.1 h with h1 | h1
      · simp [h1]
      · simp [ih h1]
  | case3 => simp [stripE3] at h

lemma stripE3_eq_self (s : Str) (h : ∀ a ∈ s, a ≠ '.') : stripE3 s = s := by
  induction s using stripE3.induct with
  | case1 r ih => exact absurd rfl (h '.' (by simp))
  | case2 c r hne ih =>
      rw [stripE3.eq_2 c r hne, ih (fun a ha => h a (by simp [ha]))]
  | case3 => rfl

lemma mem_stripE2 {a : Char} (s : Str) (h : a ∈ stripE2 s) : a ∈ s := by
  induction s using stripE2.induct with
  | case1 r ih =>
      rw [show stripE2 ('.' :: '.' :: r) = stripE2 r from rfl] at h
      simp [ih h]
  | case2 c r hne ih =>
      rw [stripE2.eq_2 c r hne] at h
      rcases List.mem_cons.1 h with h1 | h1
      · simp [h1]
      · simp [ih h1]
  | case3 => simp [stripE2] at h

lemma stripE2_eq_self (s : Str) (h : ∀ a ∈ s, a ≠ '.') : stripE2 s = s := by
  induction s using stripE2.induct with
  | case1 r ih => exact absurd rfl (h '.' (by simp))
  | case2 c r hne ih =>
      rw [stripE2.eq_2 c r hne, ih (fun a ha => h a (by simp [ha]))]
  | case3 => rfl

lemma mem_dotdotToDot {a : Char} (s : Str) (h : a ∈ dotdotToDot s) : a ∈ s := by
  induction s using dotdotToDot.induct with
  | case1 r ih =>
      rw [show dotdotToDot ('.' :: '.' :: r) = '.' :: dotdotToDot r from rfl] at h
      rcases List.mem_cons.1 h with h1 | h1
      · simp [h1]
      · simp [ih h1]
  | case2 c r hne ih =>
      rw [dotdotToDot.eq_2 c r hne] at h
      rcases List.mem_cons.1 h with h1 | h1
      · simp [h1]
      · simp [ih h1]
  | case3 => simp [dotdotToDot] at h

lemma dotdotToDot_eq_self (s : Str) (h : ∀ a ∈ s, a ≠ '.') :
    dotdotToDot s = s := by
  induction s using dotdotToDot.induct with
  | case1 r ih => exact absurd rfl (h '.' (by simp))
  | case2 c r hne ih =>
      rw [dotdotToDot.eq_2 c r hne, ih (fun a ha => h a (by simp [ha]))]
  | case3 => rfl

lemma dotdotToDot_head {s : Str} {c : Char} {r : Str}
    (h : dotdotToDot s = c :: r) : ∃ r0, s = c :: r0 := by
  induction s using dotdotToDot.induct with
  | case1 t ih =>
      rw [show dotdotToDot ('.' :: '.' :: t) = '.' :: dotdotToDot t from rfl] at h
      injection h with h1 h2
      exact ⟨'.' :: t, by rw [h1]⟩
  | case2 d t hne ih =>
      rw [dotdotToDot.eq_2 d t hne] at h
      injection h with h1 h2
      exact ⟨t, by rw [h1]⟩
  | case3 => simp [dotdotToDot] at h

lemma map_head {f : Char → Char} {s : Str} {c : Char} {r : Str}
    (h : s.map f = c :: r) : ∃ d r0, s = d :: r0 ∧ c = f d := by
  cases s with
  | nil => simp at h
  | cons d r0 =>
      simp at h
      exact ⟨d, r0, rfl, h.1.symm⟩

/-! ### Facts about `normalizeName` -/

lemma norm_no_dot {x : Str} {a : Char} (h : a ∈ normalizeName x) : a ≠ '.' := by
  unfold normalizeName at h
  have h2 := mem_trimSpace h
  simp only [List.mem_map] at h2
  obtain ⟨b, _, he⟩ := h2
  by_cases hb : b = '.'
  · rw [if_pos hb] at he; rw [← he]; decide
  · rw [if_neg hb] at he; rw [← he]; exact hb

/-- `normalizeName` is the identity on any string with no periods that is
already whitespace-trimmed. -/
lemma normalizeName_of_clean (y : Str) (hd : ∀ a ∈ y, a ≠ '.')
    (ht : trimSpace y = y) : normalizeName y = y := by
  unfold normalizeName
  rw [stripE3_eq_self y hd, stripE2_eq_self y hd,
    map_eq_self_of (fun a ha => if_neg (hd a ha)), ht]

lemma normalizeName_idem (x : Str) :
    normalizeName (normalizeName x) = normalizeName x :=
  normalizeName_of_clean _ (fun _ ha => norm_no_dot ha) (trimSpace_trimSpace _)

/-! ### Facts about `sanitizeFileName` -/

lemma san_no_dot {x : Str} {a : Char} (h : a ∈ sanitizeFileName x) :
    a ≠ '.' := by
  simp only [sanitizeFileName] at h
  have h2 := mem_dropEnd h
  simp only [List.mem_map] at h2
  obtain ⟨b, _, he⟩ := h2
  by_cases hb : b = '.'
  · rw [if_pos hb] at he; rw [← he]; decide
  · rw [if_neg hb] at he; rw [← he]; exact hb

lemma san_no_invalid {x : Str} {a : Char} (h : a ∈ sanitizeFileName x) :
    isInvalidChar a = false := by
  simp only [sanitizeFileName] at h
  have h2 := mem_dropEnd h
  simp only [List.mem_map] at h2
  obtain ⟨b, hb, he⟩ := h2
  have hb2 := mem_trimSpace (mem_dropEnd (mem_dotdotToDot _ hb))
  simp only [List.mem_map] at hb2
  obtain ⟨d, _, hde⟩ := hb2
  have hbinv : isInvalidChar b = false := by
    by_cases hdi : isInvalidChar d
    · rw [if_pos hdi] at hde; rw [← hde]; decide
    · rw [if_neg hdi] at hde; rw [← hde]; simpa using hdi
  by_cases hbd : b = '.'
  · rw [if_pos hbd] at he; rw [← he]; decide
  · rw [if_neg hbd] at he; rw [← he]; exact hbinv

lemma san_head_not_space {x : Str} {c : Char} {r : Str}
    (h : sanitizeFileName x = c :: r) : isGoSpace c = false := by
  simp only [sanitizeFileName] at h
  obtain ⟨r4, h4⟩ := pfx_head (dropEnd_isPfx _ _) h
  obtain ⟨b, r3, h3, hcb⟩ := map_head h4
  obtain ⟨r2, h2⟩ := dotdotToDot_head h3
  obtain ⟨r1, h1⟩ := pfx_head (dropEnd_isPfx _ _) h2
  have hb : isGoSpace b = false := trimSpace_head_false h1
  by_cases hbd : b = '.'
  · rw [hcb, if_pos hbd]; decide
  · rw [hcb, if_neg hbd]; exact hb

lemma san_last_not_space_char {x : Str} {c : Char}
    (h : (sanitizeFileName x).getLast? = some c) : c ≠ ' ' := by
  simp only [sanitizeFileName] at h
  have := getLast?_dropEnd_false _ _ h
  simpa using this

lemma getLast?_mem' {l : Str} {c : Char} (h : l.getLast? = some c) : c ∈ l := by
  rw [List.getLast?_eq_head?_reverse] at h
  have : c ∈ l.reverse := by
    cases hE : l.reverse with
    | nil => rw [hE] at h; simp at h
    | cons d r => rw [hE] at h; simp at h; simp [hE, h]
  simpa using this

/-- `sanitizeFileName` is the identity on a string with no forbidden
characters and no periods, whose first character is not whitespace and
whose last character is neither whitespace nor an underscore. -/
lemma san_eq_self (y : Str)
    (hinv : ∀ a ∈ y, isInvalidChar a = false)
    (hdot : ∀ a ∈ y, a ≠ '.')
    (hhead : ∀ c r, y = c :: r → isGoSpace c = false)
    (hlast : ∀ c, y.getLast? = some c → isGoSpace c = false ∧ c ≠ '_') :
    sanitizeFileName y = y := by
  have h0 : y.map (fun c => if isInvalidChar c then '_' else c) = y :=
    map_eq_self_of (fun a ha => by rw [if_neg]; simp [hinv a ha])
  have h1 : trimSpace y = y :=
    trimSpace_eq_self _ hhead (fun c hc => (hlast c hc).1)
  have h2 : dropEnd (fun c => c = '_' || c = '.' || c = ':') y = y := by
    apply dropEnd_eq_self_of
    intro c hc
    have hne1 : c ≠ '_' := (hlast c hc).2
    have hne2 : c ≠ '.' := hdot c (getLast?_mem' hc)
    have hne3 : c ≠ ':' := by
      intro he
      have := hinv c (getLast?_mem' hc)
      rw [he] at this
      exact absurd this (by decide)
    simp [hne1, hne2, hne3]
  have h3 : dotdotToDot y = y := dotdotToDot_eq_self y hdot
  have h4 : y.map (fun c => if c = '.' then '_' else c) = y :=
    map_eq_self_of (fun a ha => if_neg (hdot a ha))
  have h5 : dropEnd (fun c => c = ' ') y = y := by
    apply dropEnd_eq_self_of
    intro c hc
    have : c ≠ ' ' := by
      intro he
      have := (hlast c hc).1
      rw [he] at this
      exact absurd this (by decide)
    simp [this]
  calc sanitizeFileName y
      = dropEnd (fun c => c = ' ')
          ((dotdotToDot (dropEnd (fun c => c = '_' || c = '.' || c = ':')
            (trimSpace (y.map (fun c => if isInvalidChar c then '_' else c))))).map
            (fun c => if c = '.' then '_' else c)) := rfl
    _ = y := by rw [h0, h1, h2, h3, h4, h5]

lemma san_idem_of (x : Str)
    (hlast : ∀ c, (sanitizeFileName x).getLast? = some c →
      isGoSpace c = false ∧ c ≠ '_') :
    sanitizeFileName (sanitizeFileName x) = sanitizeFileName x :=
  san_eq_self _ (fun _ ha => san_no_invalid ha) (fun _ ha => san_no_dot ha)
    (fun _ _ he => san_head_not_space he) hlast

lemma sanName_idem_of (x : Str)
    (hlast : ∀ c, (sanName x).getLast? = some c →
      isGoSpace c = false ∧ c ≠ '_') :
    sanName (sanName x) = sanName x := by
  have hn : normalizeName (sanName x) = sanName x :=
    normalizeName_of_clean _ (fun _ ha => san_no_dot ha)
      (trimSpace_eq_self _ (fun _ _ he => san_head_not_space he)
        (fun c hc => (hlast c hc).1))
  show sanitizeFileName (normalizeName (sanName x)) = sanName x
  rw [hn]
  exact san_eq_self _ (fun _ ha => san_no_invalid ha)
    (fun _ ha => san_no_dot ha) (fun _ _ he => san_head_not_space he) hlast

/-- C6 (counterexample): `sanitizeFileName` is not idempotent.  On input
"a. ." the first application yields "a_" (the trailing-underscore/period
strip runs before the period-to-underscore replacement, so that
replacement can mint a new trailing underscore), and the second
application strips that underscore, yielding "a". -/
theorem claim_C6_counterexample :
    ¬ (sanitizeFileName (sanitizeFileName "a. .".toList) =
       sanitizeFileName "a. .".toList) := by decide

/-- C6 (amended): `normalizeName` is idempotent on every input;
`sanitizeFileName` — alone, and composed with `normalizeName` as the
program composes them — is idempotent on exactly those inputs whose output
does not end in an underscore or a whitespace character. -/
theorem claim_C6_amended :
    (∀ x : Str, normalizeName (normalizeName x) = normalizeName x) ∧
    (∀ x : Str, (∀ c, (sanitizeFileName x).getLast? = some c →
        isGoSpace c = false ∧ c ≠ '_') →
      sanitizeFileName (sanitizeFileName x) = sanitizeFileName x) ∧
    (∀ x : Str, (∀ c, (sanName x).getLast? = some c →
        isGoSpace c = false ∧ c ≠ '_') →
      sanName (sanName x) = sanName x) :=
  ⟨normalizeName_idem, san_idem_of, sanName_idem_of⟩

/-- C6 (witness): the conditional parts of the amended claim applied at
concrete inputs whose hypotheses hold. -/
theorem claim_C6_witness :
    sanitizeFileName (sanitizeFileName "a b".toList) =
      sanitizeFileName "a b".toList ∧
    sanName (sanName "Movie.Title.2020".toList) =
      sanName "Movie.Title.2020".toList :=
  ⟨claim_C6_amended.2.1 _ (by decide), claim_C6_amended.2.2 _ (by decide)⟩

/-- C10 (counterexample): the sanitizer output can end in an underscore:
`sanitizeFileName "a. ." = "a_"`. -/
theorem claim_C10_counterexample :
    (sanitizeFileName "a. .".toList).getLast? = some '_' := by decide

/-- C10 (amended): the sanitizer output is empty or ends in a character
that is none of period, colon, space — but it can end in an underscore
(periods and colons in fact never occur anywhere in the output). -/
theorem claim_C10_amended (x : Str) (c : Char)
    (h : (sanitizeFileName x).getLast? = some c) :
    c ≠ '.' ∧ c ≠ ':' ∧ c ≠ ' ' := by
  refine ⟨san_no_dot (getLast?_mem' h), ?_, san_last_not_space_char h⟩
  intro he
  have := san_no_invalid (getLast?_mem' h)
  rw [he] at this
  exact absurd this (by decide)

/-- C10 (witness): the amended claim applied at a concrete input. -/
theorem claim_C10_witness :
    (sanitizeFileName "ab".toList).getLast? = some 'b' ∧
    ('b' ≠ '.' ∧ 'b' ≠ ':' ∧ 'b' ≠ ' ') :=
  ⟨by decide, claim_C10_amended "ab".toList 'b' (by decide)⟩


/-! ### Facts about the classifier -/

lemma matchE_head {u e : Str} (h : matchE u = some e) : ∃ tl, e = 'E' :: tl := by
  unfold matchE at h
  split at h
  · split_ifs at h <;> simp_all <;> exact ⟨_, h.symm⟩
  · split_ifs at h <;> simp_all <;> exact ⟨_, h.symm⟩
  · split_ifs at h <;> simp_all <;> exact ⟨_, h.symm⟩
  · simp at h

lemma matchMarker_head {t m : Str} (h : matchMarker t = some m) :
    ∃ tl, m = 'S' :: tl := by
  unfold matchMarker at h
  split at h
  · rename_i a rest
    split_ifs at h with ha
    cases rest with
    | nil => simp at h
    | cons b rest2 =>
        simp only [] at h
        split_ifs at h with hb
        · cases hE : matchE rest2 with
          | some e => rw [hE] at h; simp at h; exact ⟨_, h.symm⟩
          | none =>
              rw [hE] at h
              cases hE2 : matchE (b :: rest2) with
              | some e => rw [hE2] at h; simp at h; exact ⟨_, h.symm⟩
              | none => rw [hE2] at h; simp at h
        · cases hE2 : matchE (b :: rest2) with
          | some e => rw [hE2] at h; simp at h; exact ⟨_, h.symm⟩
          | none => rw [hE2] at h; simp at h
  · simp at h

lemma matchMarker_take3 {t m : Str} (h : matchMarker t = some m) :
    (∃ a b, a.isDigit ∧ b.isDigit ∧ m.take 3 = ['S', a, b]) ∨
    (∃ a, a.isDigit ∧ m.take 3 = ['S', a, 'E']) := by
  unfold matchMarker at h
  split at h
  · rename_i a rest
    split_ifs at h with ha
    cases rest with
    | nil => simp at h
    | cons b rest2 =>
        simp only [] at h
        split_ifs at h with hb
        · cases hE : matchE rest2 with
          | some e =>
              rw [hE] at h
              simp at h
              left
              exact ⟨a, b, ha, hb, by rw [← h]; rfl⟩
          | none =>
              rw [hE] at h
              cases hE2 : matchE (b :: rest2) with
              | some e =>
                  rw [hE2] at h
                  simp at h
                  obtain ⟨tl, htl⟩ := matchE_head hE2
                  right
                  exact ⟨a, ha, by rw [← h, htl]; rfl⟩
              | none => rw [hE2] at h; simp at h
        · cases hE2 : matchE (b :: rest2) with
          | some e =>
              rw [hE2] at h
              simp at h
              obtain ⟨tl, htl⟩ := matchE_head hE2
              right
              exact ⟨a, ha, by rw [← h, htl]; rfl⟩
          | none => rw [hE2] at h; simp at h
  · simp at h

lemma findMarker_marker {s pre m : Str} (h : findMarker s = some (pre, m)) :
    ∃ t, matchMarker t = some m := by
  induction s generalizing pre with
  | nil => simp [findMarker] at h
  | cons c r ih =>
      rw [findMarker] at h
      cases hM : matchMarker (c :: r) with
      | some m2 =>
          rw [hM] at h
          simp at h
          exact ⟨c :: r, by rw [hM, h.2]⟩
      | none =>
          rw [hM] at h
          cases hF : findMarker r with
          | none => rw [hF] at h; simp at h
          | some pp =>
              rw [hF] at h
              simp at h
              obtain ⟨h1, h2⟩ := h
              obtain ⟨p1, m1⟩ := pp
              simp only [] at h2
              subst h2
              exact ih hF

/-- C7 (counterexample): a one-digit season defeats the "Sxx" format: the
name "Show.S1E02" is classified as a television episode and its extracted
season — the first three characters of the matched marker "S1E02" — is
"S1E", which is not the letter S followed by two digits. -/
theorem claim_C7_counterexample :
    isTVShow "Show.S1E02".toList = true ∧
    seasonOf "Show.S1E02".toList = some "S1E".toList ∧
    isSxxStr "S1E".toList = false := by decide

/-- C7 (amended): for every record classified as a television episode, the
extracted season is the first three characters of the first matched
season/episode marker, and it has the format "Sxx" (S plus two digits)
whenever the marker's season number has two digits; with a one-digit
season it is "S<digit>E" instead. -/
theorem claim_C7_amended (name pre m : Str)
    (h : findMarker name = some (pre, m)) :
    seasonOf name = some (m.take 3) ∧
    (isSxxStr (m.take 3) = true ∨ ∃ a, a.isDigit ∧ m.take 3 = ['S', a, 'E']) := by
  constructor
  · simp [seasonOf, h]
  · obtain ⟨t, ht⟩ := findMarker_marker h
    rcases matchMarker_take3 ht with ⟨a, b, ha, hb, he⟩ | ⟨a, ha, he⟩
    · left; rw [he]; simp [isSxxStr, ha, hb]
    · right; exact ⟨a, ha, he⟩

/-- C7 (witness): the amended claim at the concrete episode
"Show.S01E01". -/
theorem claim_C7_witness :
    seasonOf "Show.S01E01".toList = some ("S01E01".toList.take 3) ∧
    (isSxxStr ("S01E01".toList.take 3) = true ∨
     ∃ a, a.isDigit ∧ "S01E01".toList.take 3 = ['S', a, 'E']) :=
  claim_C7_amended "Show.S01E01".toList "Show.".toList "S01E01".toList
    (by decide)

/-- C5 (counterexample): two records that agree on kind, canonical name,
season and group label can still resolve to different stream-file paths —
the file name is built from the full display name, which also carries the
episode number.  "Show.S01E01" and "Show.S01E02" agree on the whole tuple
yet get different target files. -/
theorem claim_C5_counterexample :
    isTVShow "Show.S01E01".toList = isTVShow "Show.S01E02".toList ∧
    canonicalOf "Show.S01E01".toList = canonicalOf "Show.S01E02".toList ∧
    seasonOf "Show.S01E01".toList = seasonOf "Show.S01E02".toList ∧
    targetDirOf c1cfg "dummy".toList "Show.S01E01".toList =
      targetDirOf c1cfg "dummy".toList "Show.S01E02".toList ∧
    targetFileOf c1cfg "dummy".toList "Show.S01E01".toList ≠
      targetFileOf c1cfg "dummy".toList "Show.S01E02".toList := by decide

/-- C5 (amended): the target directory is fully determined by
(kind, canonicalName, season, groupLabel, configuration); the target
stream-file path additionally needs the sanitized full display name (for
movies that equals the canonical name, so the tuple alone suffices there). -/
theorem claim_C5_amended (cfg : Cfg) (g n1 n2 : Str)
    (hk : isTVShow n1 = isTVShow n2)
    (hc : canonicalOf n1 = canonicalOf n2)
    (hs : seasonOf n1 = seasonOf n2) :
    targetDirOf cfg g n1 = targetDirOf cfg g n2 ∧
    (sanName n1 = sanName n2 →
      targetFileOf cfg g n1 = targetFileOf cfg g n2) := by
  have hk2 := hk
  unfold isTVShow at hk2
  cases h1 : findMarker n1 with
  | none =>
      cases h2 : findMarker n2 with
      | some pm2 => rw [h1, h2] at hk2; simp at hk2
      | none =>
          unfold canonicalOf at hc
          simp only [h1, h2] at hc
          unfold targetFileOf targetDirOf
          simp only [h1, h2]
          rw [hc]
          exact ⟨rfl, fun _ => rfl⟩
  | some pm1 =>
      cases h2 : findMarker n2 with
      | none => rw [h1, h2] at hk2; simp at hk2
      | some pm2 =>
          obtain ⟨p1, m1⟩ := pm1
          obtain ⟨p2, m2⟩ := pm2
          unfold canonicalOf at hc
          unfold seasonOf at hs
          simp only [h1, h2] at hc hs
          simp at hs
          unfold targetFileOf targetDirOf
          simp only [h1, h2]
          rw [hc, hs]
          exact ⟨rfl, fun hsan => by rw [hsan]⟩

/-- C5 (witness): the amended claim at two concretely different display
names with equal classification tuples and equal sanitized names. -/
theorem claim_C5_witness :
    targetDirOf c1cfg [] "A.S01E01".toList =
      targetDirOf c1cfg [] "A S01E01".toList ∧
    targetFileOf c1cfg [] "A.S01E01".toList =
      targetFileOf c1cfg [] "A S01E01".toList := by
  have h := claim_C5_amended c1cfg [] "A.S01E01".toList "A S01E01".toList
    (by decide) (by decide) (by decide)
  exact ⟨h.1, h.2 (by decide)⟩

lemma findMarker_head_S {s pre m : Str} (h : findMarker s = some (pre, m)) :
    ∃ tl, m = 'S' :: tl := by
  obtain ⟨t, ht⟩ := findMarker_marker h
  exact matchMarker_head ht

/-- C8 (counterexample): a display name that is nothing but the marker
("S01E01") matches the pattern and its prefix sanitizes to the empty
string, yet the record is not dropped: it is materialized (the empty show
segment simply vanishes from the path), added to the keep set, and its
stream file is written under `tvshows/S01/`. -/
theorem claim_C8_counterexample :
    (processTVShow c1cfg "dummy".toList
      { url := "http://u".toList, tvgName := "S01E01".toList, groupTitle := [] }
      { tv := FS.nil, movies := FS.nil, keep := [], createdDirs := 0,
        keptStrm := 0 }).keep = ["tvshows/S01/S01E01.strm".toList] ∧
    getNode (processTVShow c1cfg "dummy".toList
      { url := "http://u".toList, tvgName := "S01E01".toList, groupTitle := [] }
      { tv := FS.nil, movies := FS.nil, keep := [], createdDirs := 0,
        keptStrm := 0 }).tv ["S01".toList, "S01E01.strm".toList] =
      some (Node.fileN "http://u".toList) := by decide

/-- C8 (amended): a record whose display name matches the marker pattern
but whose prefix sanitizes to the empty string is not an error and is not
dropped: it is processed like any other episode, with the empty show-name
segment omitted from the path by `filepath.Join`, its file recorded in the
keep set and counted as kept.  (The only dropped-record branch of
`processTVShow` fires when the regexp finds no match, which cannot happen
for a record dispatched as a television show.) -/
theorem claim_C8_amended (cfg : Cfg) (g : Str) (s : Stream) (st : MState)
    (pre m : Str) (hf : findMarker s.tvgName = some (pre, m))
    (he : sanitizeFileName (normalizeName pre) = [])
    (hg : cfg.useGroup ≠ 1) :
    (processTVShow cfg g s st).keep =
      joinSegs cfg.tvRoot [m.take 3, sanName s.tvgName ++ ".strm".toList] ::
        st.keep ∧
    (processTVShow cfg g s st).keptStrm = st.keptStrm + 1 := by
  obtain ⟨tl, htl⟩ := findMarker_head_S hf
  have hm3 : m.take 3 ≠ [] := by rw [htl]; simp
  unfold processTVShow
  rw [hf]
  simp [he, hg, segsOf, hm3, joinSegs]

/-- C8 (witness): the amended claim at the concrete record "S01E01". -/
theorem claim_C8_witness :
    (processTVShow c1cfg "dummy".toList
      { url := "http://u".toList, tvgName := "S01E01".toList, groupTitle := [] }
      { tv := FS.nil, movies := FS.nil, keep := [], createdDirs := 0,
        keptStrm := 0 }).keep =
      joinSegs c1cfg.tvRoot ["S01E01".toList.take 3,
        sanName "S01E01".toList ++ ".strm".toList] :: [] ∧
    (processTVShow c1cfg "dummy".toList
      { url := "http://u".toList, tvgName := "S01E01".toList, groupTitle := [] }
      { tv := FS.nil, movies := FS.nil, keep := [], createdDirs := 0,
        keptStrm := 0 }).keptStrm = 0 + 1 :=
  claim_C8_amended c1cfg "dummy".toList
    { url := "http://u".toList, tvgName := "S01E01".toList, groupTitle := [] }
    { tv := FS.nil, movies := FS.nil, keep := [], createdDirs := 0,
      keptStrm := 0 } [] "S01E01".toList (by decide) (by decide) (by decide)

/-- C1 (counterexample): after the end-to-end run the claimed paths with
underscores do not exist — `normalizeName` turns periods into spaces, not
underscores, so the generated names contain spaces. -/
theorem claim_C1_counterexample :
    getNode c1run.tv
      ["Show".toList, "S01".toList, "Show_S01E01.strm".toList] = none ∧
    getNode c1run.movies ["Old_Movie".toList] = none := by decide

/-- C1 (amended): the end-to-end scenario with the space-separated names
the code actually produces: after one run,
`tvshows/Show/S01/Show S01E01.strm` contains exactly the first URL,
`movies/Old Movie/Old Movie.strm` contains exactly the second, and
`movies/Stale_Movie/` is gone entirely (its file deleted, then the empty
directory deleted). -/
theorem claim_C1_amended :
    getNode c1run.tv
      ["Show".toList, "S01".toList, "Show S01E01.strm".toList] =
      some (Node.fileN "http://x/a.mkv".toList) ∧
    getNode c1run.movies ["Old Movie".toList, "Old Movie.strm".toList] =
      some (Node.fileN "http://x/b.avi".toList) ∧
    getNode c1run.movies ["Stale_Movie".toList] = none ∧
    c1run.removedStrm = 1 ∧ c1run.removedEmptyDirs = 1 := by decide


/-! ### Facts about the pruning walk: accounting -/

lemma fileLoop_del (ci : List Str) (lim : Int) (p : Str) :
    ∀ (fs : FS) (del : Nat),
      (fileLoop ci lim p fs del).del = del + (fileLoop ci lim p fs del).rf := by
  intro fs
  induction fs with
  | nil => intro del; simp [fileLoop]
  | file n c fs ih =>
      intro del
      simp only [fileLoop]
      split
      · simp
      · split
        · have := ih (del + 1); simp only []; omega
        · have := ih del; simp only []; omega
  | dir n cs fs ihcs ihr =>
      intro del
      simp only [fileLoop]
      split
      · simp
      · have := ihr del; simp only []; omega

lemma pruneL_del (ci : List Str) (lim : Int) :
    ∀ (fs : FS) (p : Str) (mask : List Bool) (del : Nat),
      (pruneL ci lim p fs mask del).del =
        del + (pruneL ci lim p fs mask del).rf := by
  intro fs
  induction fs with
  | nil => intro p mask del; simp [pruneL]
  | file n c fs ih =>
      intro p mask del
      simp only [pruneL]
      split
      · have := ih p mask.tail del; simp only []; omega
      · exact ih p mask.tail del
  | dir n cs fs ihcs ihr =>
      intro p mask del
      simp only [pruneL]
      split
      · split
        · have h1 := fileLoop_del ci lim (join2 p n) cs del
          have h2 := ihr p mask.tail (fileLoop ci lim (join2 p n) cs del).del
          simp only []
          omega
        · split
          · have h1 := fileLoop_del ci lim (join2 p n) cs del
            have h2 := ihr p mask.tail (fileLoop ci lim (join2 p n) cs del).del
            simp only []
            omega
          · have h1 := fileLoop_del ci lim (join2 p n) cs del
            have h2 := ihcs (join2 p n) (fileLoop ci lim (join2 p n) cs del).mask
              (fileLoop ci lim (join2 p n) cs del).del
            have h3 := ihr p mask.tail
              (pruneL ci lim (join2 p n) cs
                (fileLoop ci lim (join2 p n) cs del).mask
                (fileLoop ci lim (join2 p n) cs del).del).del
            simp only []
            omega
      · exact ihr p mask.tail del

lemma removeEmptyDirs_del (ci : List Str) (lim : Int) (root : Str) (cs : FS) :
    (removeEmptyDirs ci lim root cs).del = (removeEmptyDirs ci lim root cs).rf := by
  simp only [removeEmptyDirs]
  split
  · have := fileLoop_del ci lim root cs 0; simp only []; omega
  · have h1 := fileLoop_del ci lim root cs 0
    have h2 := pruneL_del ci lim cs root (fileLoop ci lim root cs 0).mask
      (fileLoop ci lim root cs 0).del
    simp only []
    omega

lemma applyMask_trueMask : ∀ fs : FS, applyMask fs (trueMask fs) = fs := by
  intro fs
  induction fs with
  | nil => rfl
  | file n c fs ih => simp [trueMask, applyMask, ih]
  | dir n cs fs ihcs ihr => simp [trueMask, applyMask, ihr]

/-- At an exhausted budget the entry loop of a non-empty directory aborts
immediately: nothing deleted, counter unchanged, `SkipDir` returned. -/
lemma fileLoop_at_limit (ci : List Str) (lim : Int) (p : Str) (fs : FS)
    (del : Nat) (hge : (del : Int) ≥ lim) (hne : fs ≠ FS.nil) :
    fileLoop ci lim p fs del = ⟨trueMask fs, del, 0, true⟩ := by
  cases fs with
  | nil => exact absurd rfl hne
  | file n c r => simp [fileLoop, hge]
  | dir n cs r => simp [fileLoop, hge]

/-- The entry loop of an empty directory does nothing and does not skip,
whatever the counter. -/
lemma fileLoop_nil (ci : List Str) (lim : Int) (p : Str) (del : Nat) :
    fileLoop ci lim p FS.nil del = ⟨[], del, 0, false⟩ := rfl

/-- C9: the deletion budget bounds only stream-file removals.  First: over
a whole walk the final deletion counter equals the number of stream files
removed (directory removals are never counted against it).  Second: a
directory with no entries at all is still deleted when visited after the
budget is exhausted (the limit check sits inside the per-entry loop, which
an empty directory never enters). -/
theorem claim_C9 :
    (∀ (ci : List Str) (lim : Int) (root : Str) (cs : FS),
      (removeEmptyDirs ci lim root cs).del =
        (removeEmptyDirs ci lim root cs).rf) ∧
    (∀ (ci : List Str) (lim : Int) (p n : Str) (r : FS) (mask : List Bool)
        (del : Nat), mask.headD true = true → (del : Int) ≥ lim →
      pruneL ci lim p (FS.dir n FS.nil r) mask del =
        ⟨(pruneL ci lim p r mask.tail del).out,
         (pruneL ci lim p r mask.tail del).del,
         (pruneL ci lim p r mask.tail del).rf,
         1 + (pruneL ci lim p r mask.tail del).rd⟩) := by
  constructor
  · exact removeEmptyDirs_del
  · intro ci lim p n r mask del hm _
    cases mask with
    | nil => simp [pruneL, fileLoop_nil, applyMask, FS.isNil]
    | cons b bs =>
        simp only [List.headD_cons] at hm
        subst hm
        simp [pruneL, fileLoop_nil, applyMask, FS.isNil]

/-- C9 (witness): the second part at a concrete empty directory visited
with the budget already exhausted. -/
theorem claim_C9_witness :
    pruneL [] 0 "r".toList (FS.dir "d".toList FS.nil FS.nil) [] 0 =
      ⟨(pruneL [] 0 "r".toList FS.nil [] 0).out,
       (pruneL [] 0 "r".toList FS.nil [] 0).del,
       (pruneL [] 0 "r".toList FS.nil [] 0).rf,
       1 + (pruneL [] 0 "r".toList FS.nil [] 0).rd⟩ :=
  claim_C9.2 [] 0 "r".toList "d".toList FS.nil [] 0 (by decide) (by decide)

/-! ### Facts about the pruning walk: exactness of the deletion budget -/

lemma staleCount_split (ci : List Str) : ∀ (p : Str) (fs : FS),
    staleCount ci p fs = topStale ci p fs + dirStale ci p fs := by
  intro p fs
  induction fs generalizing p with
  | nil => rfl
  | file n c fs ih => simp only [staleCount, topStale, dirStale, ih]; omega
  | dir n cs fs ihcs ihr => simp only [staleCount, topStale, dirStale, ihr]; omega

lemma fileLoop_rf (ci : List Str) (lim : Int) (p : Str) :
    ∀ (fs : FS) (del : Nat),
      (fileLoop ci lim p fs del).rf =
        min (lim.toNat - del) (topStale ci p fs) := by
  intro fs
  induction fs with
  | nil => intro del; simp [fileLoop, topStale]
  | file n c fs ih =>
      intro del
      simp only [fileLoop, topStale]
      split
      · rename_i hge
        dsimp only
        omega
      · rename_i hlt
        split
        · rename_i hst
          have ihh := ih (del + 1)
          simp only [hst, if_true]
          omega
        · rename_i hst
          have ihh := ih del
          simp only [hst, if_false]
          omega
  | dir n cs fs ihcs ihr =>
      intro del
      simp only [fileLoop, topStale]
      split
      · rename_i hge
        dsimp only
        omega
      · have ihh := ihr del
        dsimp only
        omega

lemma fileLoop_skipped (ci : List Str) (lim : Int) (p : Str) :
    ∀ (fs : FS) (del : Nat),
      (fileLoop ci lim p fs del).skipped = true →
        ((fileLoop ci lim p fs del).del : Int) ≥ lim := by
  intro fs
  induction fs with
  | nil => intro del h; simp [fileLoop] at h
  | file n c fs ih =>
      intro del h
      simp only [fileLoop] at h ⊢
      split at h
      · rename_i hge
        rw [if_pos hge]
        dsimp only
        exact hge
      · rename_i hge
        rw [if_neg hge]
        by_cases hst : staleName ci p n = true
        · simp only [hst, if_true] at h ⊢
          exact ih (del + 1) h
        · simp only [hst, if_false] at h ⊢
          exact ih del h
  | dir n cs fs ihcs ihr =>
      intro del h
      simp only [fileLoop] at h ⊢
      split at h
      · rename_i hge
        rw [if_pos hge]
        dsimp only
        exact hge
      · rename_i hge
        rw [if_neg hge]
        exact ihr del h

lemma isNil_eq {fs : FS} (h : fs.isNil = true) : fs = FS.nil := by
  cases fs with
  | nil => rfl
  | file n c r => simp [FS.isNil] at h
  | dir n cs r => simp [FS.isNil] at h

lemma dirsKept_trueMask : ∀ fs : FS, dirsKept fs (trueMask fs) = true := by
  intro fs
  induction fs with
  | nil => rfl
  | file n c fs ih => simpa [trueMask, dirsKept] using ih
  | dir n cs fs ihcs ihr => simpa [trueMask, dirsKept] using ihr

lemma fileLoop_mask_dirsKept (ci : List Str) (lim : Int) (p : Str) :
    ∀ (fs : FS) (del : Nat),
      dirsKept fs (fileLoop ci lim p fs del).mask = true := by
  intro fs
  induction fs with
  | nil => intro del; rfl
  | file n c fs ih =>
      intro del
      simp only [fileLoop]
      split
      · exact dirsKept_trueMask _
      · split
        · simpa [dirsKept] using ih (del + 1)
        · simpa [dirsKept] using ih del
  | dir n cs fs ihcs ihr =>
      intro del
      simp only [fileLoop]
      split
      · exact dirsKept_trueMask _
      · simpa [dirsKept] using ihr del

lemma applyMask_nil_dirStale (ci : List Str) (p : Str) :
    ∀ (fs : FS) (mask : List Bool), dirsKept fs mask = true →
      applyMask fs mask = FS.nil → dirStale ci p fs = 0 := by
  intro fs
  induction fs with
  | nil => intro mask _ _; rfl
  | file n c fs ih =>
      intro mask hk ha
      cases mask with
      | nil => simp [applyMask] at ha
      | cons b bs =>
          simp only [applyMask] at ha
          simp only [dirsKept, List.tail_cons] at hk
          split at ha
          · simp at ha
          · simp only [dirStale]
            exact ih bs hk ha
  | dir n cs fs ihcs ihr =>
      intro mask hk ha
      cases mask with
      | nil => simp [applyMask] at ha
      | cons b bs =>
          simp only [dirsKept, List.headD_cons, List.tail_cons,
            Bool.and_eq_true] at hk
          simp only [applyMask] at ha
          rw [if_pos hk.1] at ha
          simp at ha

lemma visitDir_del (ci : List Str) (lim : Int) (dp : Str) (cs : FS)
    (del : Nat) :
    (visitDir ci lim dp cs del).del = del + (visitDir ci lim dp cs del).rf := by
  simp only [visitDir]
  split
  · have := fileLoop_del ci lim dp cs del; simp only []; omega
  · split
    · have := fileLoop_del ci lim dp cs del; simp only []; omega
    · have h1 := fileLoop_del ci lim dp cs del
      have h2 := pruneL_del ci lim cs dp (fileLoop ci lim dp cs del).mask
        (fileLoop ci lim dp cs del).del
      simp only []
      omega

lemma pruneL_dir_rf (ci : List Str) (lim : Int) (p n : Str) (cs r : FS)
    (mask : List Bool) (del : Nat) (hm : mask.headD true = true) :
    (pruneL ci lim p (FS.dir n cs r) mask del).rf =
      (visitDir ci lim (join2 p n) cs del).rf +
      (pruneL ci lim p r mask.tail
        (visitDir ci lim (join2 p n) cs del).del).rf := by
  simp only [pruneL, visitDir, hm, if_true]
  split
  · rfl
  · split
    · rfl
    · rfl

/-- Exactness of the deletion budget, per directory visit and per descent:
the walk deletes exactly `min (remaining budget) (stale files in scope)`. -/
lemma prune_min (ci : List Str) (lim : Int) : ∀ fs : FS,
    (∀ (p : Str) (mask : List Bool) (del : Nat), dirsKept fs mask = true →
      (pruneL ci lim p fs mask del).rf =
        min (lim.toNat - del) (dirStale ci p fs)) ∧
    (∀ (dp : Str) (del : Nat),
      (visitDir ci lim dp fs del).rf =
        min (lim.toNat - del) (staleCount ci dp fs)) := by
  have visit_of : ∀ (cs : FS) (dp : Str),
      (∀ (mask : List Bool) (del : Nat), dirsKept cs mask = true →
        (pruneL ci lim dp cs mask del).rf =
          min (lim.toNat - del) (dirStale ci dp cs)) →
      ∀ del, (visitDir ci lim dp cs del).rf =
        min (lim.toNat - del) (staleCount ci dp cs) := by
    intro cs dp hP del
    have hrf := fileLoop_rf ci lim dp cs del
    have hdel := fileLoop_del ci lim dp cs del
    have hsplit := staleCount_split ci dp cs
    simp only [visitDir]
    split
    · rename_i hsk
      have hge := fileLoop_skipped ci lim dp cs del hsk
      simp only []
      omega
    · rename_i hsk
      split
      · rename_i hnil
        have h0 := applyMask_nil_dirStale ci dp cs
          (fileLoop ci lim dp cs del).mask
          (fileLoop_mask_dirsKept ci lim dp cs del) (isNil_eq hnil)
        simp only []
        omega
      · have hq := hP (fileLoop ci lim dp cs del).mask
          (fileLoop ci lim dp cs del).del
          (fileLoop_mask_dirsKept ci lim dp cs del)
        simp only []
        omega
  intro fs
  induction fs with
  | nil =>
      constructor
      · intro p mask del _
        simp [pruneL, dirStale]
      · intro dp del
        refine (visit_of FS.nil dp ?_ del).trans (by rfl)
        intro mask del2 _
        simp [pruneL, dirStale]
  | file n c fs ih =>
      have hP : ∀ (p : Str) (mask : List Bool) (del : Nat),
          dirsKept (FS.file n c fs) mask = true →
          (pruneL ci lim p (FS.file n c fs) mask del).rf =
            min (lim.toNat - del) (dirStale ci p (FS.file n c fs)) := by
        intro p mask del hk
        simp only [dirsKept] at hk
        simp only [pruneL, dirStale]
        split
        · simp only []
          exact ih.1 p mask.tail del hk
        · exact ih.1 p mask.tail del hk
      exact ⟨hP, fun dp del => visit_of _ dp (hP dp) del⟩
  | dir n cs fs ihcs ihr =>
      have hP : ∀ (p : Str) (mask : List Bool) (del : Nat),
          dirsKept (FS.dir n cs fs) mask = true →
          (pruneL ci lim p (FS.dir n cs fs) mask del).rf =
            min (lim.toNat - del) (dirStale ci p (FS.dir n cs fs)) := by
        intro p mask del hk
        simp only [dirsKept, Bool.and_eq_true] at hk
        rw [pruneL_dir_rf ci lim p n cs fs mask del hk.1]
        have hv := visit_of cs (join2 p n) (ihcs.1 (join2 p n)) del
        have hvd := visitDir_del ci lim (join2 p n) cs del
        have hq := ihr.1 p mask.tail (visitDir ci lim (join2 p n) cs del).del
          hk.2
        rw [hv] at hvd ⊢
        rw [hq]
        simp only [dirStale]
        omega
      exact ⟨hP, fun dp del => visit_of _ dp (hP dp) del⟩

/-- One pruning walk removes exactly `min limit (stale files under the
root)` stream files. -/
lemma removeEmptyDirs_rf (ci : List Str) (lim : Int) (root : Str) (cs : FS) :
    (removeEmptyDirs ci lim root cs).rf =
      min lim.toNat (staleCount ci root cs) := by
  have hrf := fileLoop_rf ci lim root cs 0
  have hdel := fileLoop_del ci lim root cs 0
  have hsplit := staleCount_split ci root cs
  simp only [removeEmptyDirs]
  split
  · rename_i hsk
    have hge := fileLoop_skipped ci lim root cs 0 hsk
    simp only []
    omega
  · have hq := (prune_min ci lim cs).1 root (fileLoop ci lim root cs 0).mask
      (fileLoop ci lim root cs 0).del (fileLoop_mask_dirsKept ci lim root cs 0)
    simp only []
    omega

/-- C3 (counterexample): the deletion counter is local to each walk, not to
the run: `removeEmptyDirs` is called once per root and starts its counter
at zero each time, so with limit 1 and one stale file under each root the
run deletes 2 stream files, not "exactly L = 1". -/
theorem claim_C3_counterexample :
    (runOnce { c1cfg with limitDelete := 1 } []
      (FS.file "x.strm".toList [] FS.nil)
      (FS.file "y.strm".toList [] FS.nil)).removedStrm = 2 := by decide

/-- C3 (amended): per walk, not per run.  First: one pruning walk with
limit L, 0 ≤ L, over a root holding N stale stream files with L < N
removes exactly L of them (in general it removes `min L N`).  Second: once
the walk's counter has reached the limit, a visited directory with any
entries at all is abandoned by the first loop check: its whole subtree is
left untouched, nothing in it is deleted, and it is not descended into. -/
theorem claim_C3_amended :
    (∀ (ci : List Str) (lim : Int) (root : Str) (cs : FS),
      0 ≤ lim → lim.toNat < staleCount ci root cs →
      (removeEmptyDirs ci lim root cs).rf = lim.toNat) ∧
    (∀ (ci : List Str) (lim : Int) (p n : Str) (cs r : FS) (mask : List Bool)
        (del : Nat), mask.headD true = true → (del : Int) ≥ lim →
        cs ≠ FS.nil →
      pruneL ci lim p (FS.dir n cs r) mask del =
        ⟨FS.dir n cs (pruneL ci lim p r mask.tail del).out,
         (pruneL ci lim p r mask.tail del).del,
         (pruneL ci lim p r mask.tail del).rf,
         (pruneL ci lim p r mask.tail del).rd⟩) := by
  constructor
  · intro ci lim root cs h0 hlt
    rw [removeEmptyDirs_rf]
    omega
  · intro ci lim p n cs r mask del hm hge hne
    simp only [pruneL, hm, if_true, fileLoop_at_limit ci lim (join2 p n) cs
      del hge hne]
    simp [applyMask_trueMask]

/-- C3 (witness): both parts at concrete inputs — a walk with limit 1 over
two stale files deletes exactly one, and a non-empty directory visited at
an exhausted budget is left untouched. -/
theorem claim_C3_witness :
    (removeEmptyDirs [] 1 "m".toList
      (FS.file "x.strm".toList [] (FS.file "y.strm".toList [] FS.nil))).rf =
      (1 : Int).toNat ∧
    pruneL [] 0 "r".toList
      (FS.dir "d".toList (FS.file "z".toList [] FS.nil) FS.nil) [] 0 =
      ⟨FS.dir "d".toList (FS.file "z".toList [] FS.nil)
         (pruneL [] 0 "r".toList FS.nil [] 0).out,
       (pruneL [] 0 "r".toList FS.nil [] 0).del,
       (pruneL [] 0 "r".toList FS.nil [] 0).rf,
       (pruneL [] 0 "r".toList FS.nil [] 0).rd⟩ :=
  ⟨claim_C3_amended.1 [] 1 "m".toList
      (FS.file "x.strm".toList [] (FS.file "y.strm".toList [] FS.nil))
      (by decide) (by decide),
   claim_C3_amended.2 [] 0 "r".toList "d".toList
      (FS.file "z".toList [] FS.nil) FS.nil [] 0 (by decide) (by decide)
      (by decide)⟩


/-! ### Facts about the pruning walk: keep-set files survive -/

lemma joinSegs_cons (root n : Str) (rest : List Str) :
    joinSegs root (n :: rest) = joinSegs (join2 root n) rest := rfl

lemma trueMask_honest (ci : List Str) (p : Str) :
    ∀ fs : FS, maskHonest ci p fs (trueMask fs) = true := by
  intro fs
  induction fs with
  | nil => rfl
  | file n c fs ih => simpa [trueMask, maskHonest] using ih
  | dir n cs fs ihcs ihr => simpa [trueMask, maskHonest] using ihr

lemma fileLoop_mask_honest (ci : List Str) (lim : Int) (p : Str) :
    ∀ (fs : FS) (del : Nat),
      maskHonest ci p fs (fileLoop ci lim p fs del).mask = true := by
  intro fs
  induction fs with
  | nil => intro del; rfl
  | file n c fs ih =>
      intro del
      simp only [fileLoop]
      split
      · exact trueMask_honest ci p _
      · split
        · rename_i hst
          simpa [maskHonest, hst] using ih (del + 1)
        · simpa [maskHonest] using ih del
  | dir n cs fs ihcs ihr =>
      intro del
      simp only [fileLoop]
      split
      · exact trueMask_honest ci p _
      · simpa [maskHonest] using ihr del

/-- Applying an honest mask preserves the node at any path whose top-level
entry is not a stale file (in particular: any directory path, and any file
whose lower-cased full path is in the keep set). -/
lemma applyMask_keeps (ci : List Str) (p : Str) :
    ∀ (cs : FS) (mask : List Bool) (n : Str) (rest : List Str) (v : Node),
      maskHonest ci p cs mask = true →
      getNode cs (n :: rest) = some v →
      (∀ content, v = Node.fileN content → rest = [] →
        staleName ci p n = false) →
      getNode (applyMask cs mask) (n :: rest) = some v := by
  intro cs
  induction cs with
  | nil => intro mask n rest v _ hget _; simp [getNode] at hget
  | file m c r ih =>
      intro mask n rest v hh hget hsafe
      cases mask with
      | nil => simpa [applyMask] using hget
      | cons b bs =>
          simp only [maskHonest, List.headD_cons, List.tail_cons,
            Bool.and_eq_true] at hh
          simp only [getNode] at hget
          by_cases hmn : m = n
          · rw [if_pos hmn] at hget
            by_cases hrest : rest.isEmpty
            · rw [if_pos hrest] at hget
              have hv : v = Node.fileN c := by
                injection hget with h2; exact h2.symm
              have hrest2 : rest = [] := by
                cases rest with
                | nil => rfl
                | cons x xs => simp [List.isEmpty] at hrest
              have hns := hsafe c hv hrest2
              have hb : b = true := by
                rcases Bool.or_eq_true_iff.1 hh.1 with h2 | h2
                · exact h2
                · rw [hmn] at h2; rw [h2] at hns; exact absurd hns (by simp)
              rw [hb]
              simp only [applyMask, if_true, getNode]
              rw [if_pos hmn, if_pos hrest]
              exact hget
            · rw [if_neg hrest] at hget; simp at hget
          · rw [if_neg hmn] at hget
            cases b with
            | true =>
                simp only [applyMask, if_true, getNode]
                rw [if_neg hmn]
                exact ih bs n rest v hh.2 hget hsafe
            | false =>
                simp only [applyMask, if_false]
                exact ih bs n rest v hh.2 hget hsafe
  | dir m cs2 r ihcs ihr =>
      intro mask n rest v hh hget hsafe
      cases mask with
      | nil => simpa [applyMask] using hget
      | cons b bs =>
          simp only [maskHonest, List.headD_cons, List.tail_cons,
            Bool.and_eq_true] at hh
          rw [hh.1]
          simp only [applyMask, if_true, getNode]
          simp only [getNode] at hget
          by_cases hmn : m = n
          · rw [if_pos hmn] at hget ⊢
            exact hget
          · rw [if_neg hmn] at hget ⊢
            exact ihr bs n rest v hh.2 hget hsafe

/-- A stream file whose lower-cased full path is in the (lower-cased) keep
set survives the descent untouched, whatever the deletion budget state. -/
lemma pruneL_keeps (ci : List Str) (lim : Int) :
    ∀ (cs : FS) (p : Str) (mask : List Bool) (del : Nat) (n : Str)
      (rest : List Str) (content : Str),
      maskHonest ci p cs mask = true →
      getNode cs (n :: rest) = some (Node.fileN content) →
      isStrmName (rest.getLastD n) = false ∨
        lowerStr (joinSegs p (n :: rest)) ∈ ci →
      getNode (pruneL ci lim p cs mask del).out (n :: rest) =
        some (Node.fileN content) := by
  intro cs
  induction cs with
  | nil => intro p mask del n rest content _ hget _; simp [getNode] at hget
  | file m c r ihr =>
      intro p mask del n rest content hh hget hkeep
      simp only [maskHonest, Bool.and_eq_true] at hh
      simp only [getNode] at hget
      by_cases hmn : m = n
      · rw [if_pos hmn] at hget
        by_cases hrest : rest.isEmpty
        · have hrest2 : rest = [] := by
            cases rest with
            | nil => rfl
            | cons x xs => simp [List.isEmpty] at hrest
          rw [if_pos hrest] at hget
          have hc : content = c := by
            injection hget with h2
            injection h2 with h3
            exact h3.symm
          subst hrest2
          have hstale : staleName ci p n = false := by
            simp only [staleName]
            rcases hkeep with hns | hk
            · simp only [List.getLastD_nil] at hns
              simp [hns]
            · have : lowerStr (join2 p n) ∈ ci := hk
              simp [this]
          have hb : mask.headD true = true := by
            rcases Bool.or_eq_true_iff.1 hh.1 with h2 | h2
            · exact h2
            · rw [hmn] at h2; rw [h2] at hstale; exact absurd hstale (by simp)
          simp only [pruneL, hb, if_true, getNode]
          rw [if_pos hmn]
          simpa using hc.symm
        · rw [if_neg hrest] at hget; simp at hget
      · rw [if_neg hmn] at hget
        simp only [pruneL]
        split
        · simp only [getNode]
          rw [if_neg hmn]
          exact ihr p mask.tail del n rest content hh.2 hget hkeep
        · exact ihr p mask.tail del n rest content hh.2 hget hkeep
  | dir m cs2 r ihcs ihr =>
      intro p mask del n rest content hh hget hkeep
      simp only [maskHonest, Bool.and_eq_true] at hh
      simp only [getNode] at hget
      by_cases hmn : m = n
      · rw [if_pos hmn] at hget
        cases rest with
        | nil => simp [getNode] at hget
        | cons n2 rest2 =>
            have hkeep2 : isStrmName (rest2.getLastD n2) = false ∨
                lowerStr (joinSegs (join2 p m) (n2 :: rest2)) ∈ ci := by
              rw [hmn]
              rcases hkeep with hns | hk
              · left
                rw [List.getLastD_cons] at hns
                exact hns
              · right
                exact hk
            have hsafe : ∀ content2, Node.fileN content = Node.fileN content2 →
                rest2 = [] → staleName ci (join2 p m) n2 = false := by
              intro content2 _ hrest2
              subst hrest2
              simp only [staleName]
              rcases hkeep2 with hns | hk
              · simp only [List.getLastD_nil] at hns
                simp [hns]
              · have : lowerStr (join2 (join2 p m) n2) ∈ ci := hk
                simp [this]
            have hkept := applyMask_keeps ci (join2 p m) cs2
              (fileLoop ci lim (join2 p m) cs2 del).mask n2 rest2
              (Node.fileN content)
              (fileLoop_mask_honest ci lim (join2 p m) cs2 del) hget
              (fun c2 hv hr => hsafe c2 hv hr)
            simp only [pruneL, hh.1, if_true]
            split
            · simp only [getNode]
              rw [if_pos hmn]
              exact hkept
            · split
              · rename_i hnil
                rw [isNil_eq hnil] at hkept
                simp [getNode] at hkept
              · simp only [getNode]
                rw [if_pos hmn]
                exact ihcs (join2 p m)
                  (fileLoop ci lim (join2 p m) cs2 del).mask
                  (fileLoop ci lim (join2 p m) cs2 del).del n2 rest2 content
                  (fileLoop_mask_honest ci lim (join2 p m) cs2 del) hget hkeep2
      · rw [if_neg hmn] at hget
        simp only [pruneL, hh.1, if_true]
        split
        · simp only [getNode]
          rw [if_neg hmn]
          exact ihr p mask.tail _ n rest content hh.2 hget hkeep
        · split
          · exact ihr p mask.tail _ n rest content hh.2 hget hkeep
          · simp only [getNode]
            rw [if_neg hmn]
            exact ihr p mask.tail _ n rest content hh.2 hget hkeep

/-- Keep-set preservation over a whole pruning walk. -/
lemma removeEmptyDirs_keeps (ci : List Str) (lim : Int) (root : Str)
    (cs : FS) (n : Str) (rest : List Str) (content : Str)
    (hget : getNode cs (n :: rest) = some (Node.fileN content))
    (hkeep : isStrmName (rest.getLastD n) = false ∨
      lowerStr (joinSegs root (n :: rest)) ∈ ci) :
    getNode (removeEmptyDirs ci lim root cs).out (n :: rest) =
      some (Node.fileN content) := by
  have hsafe : ∀ content2, Node.fileN content = Node.fileN content2 →
      rest = [] → staleName ci root n = false := by
    intro content2 _ hrest2
    subst hrest2
    simp only [staleName]
    rcases hkeep with hns | hk
    · simp only [List.getLastD_nil] at hns
      simp [hns]
    · have : lowerStr (join2 root n) ∈ ci := hk
      simp [this]
  simp only [removeEmptyDirs]
  split
  · exact applyMask_keeps ci root cs (fileLoop ci lim root cs 0).mask n rest
      (Node.fileN content) (fileLoop_mask_honest ci lim root cs 0) hget hsafe
  · exact pruneL_keeps ci lim cs root (fileLoop ci lim root cs 0).mask
      (fileLoop ci lim root cs 0).del n rest content
      (fileLoop_mask_honest ci lim root cs 0) hget hkeep

/-- C4: pruning safety.  A stream file present at pruning time whose full
path is in the keep set under case-insensitive comparison (the walk lowers
both the keep entries and the on-disk path before comparing) is never
deleted by the walk, whatever the deletion limit and however the two
strings are cased. -/
theorem claim_C4 (keep : List Str) (lim : Int) (root : Str) (cs : FS)
    (n : Str) (rest : List Str) (content : Str)
    (hget : getNode cs (n :: rest) = some (Node.fileN content))
    (hkeep : lowerStr (joinSegs root (n :: rest)) ∈ keep.map lowerStr) :
    getNode (removeEmptyDirs (keep.map lowerStr) lim root cs).out (n :: rest) =
      some (Node.fileN content) :=
  removeEmptyDirs_keeps (keep.map lowerStr) lim root cs n rest content hget
    (Or.inr hkeep)

/-- C4 (witness): a file stored as `m/A.strm` protected by a keep entry
written as `M/a.StRm` survives a walk that would otherwise delete it. -/
theorem claim_C4_witness :
    getNode (removeEmptyDirs (["M/a.StRm".toList].map lowerStr) 25 "m".toList
      (FS.file "A.strm".toList "u".toList FS.nil)).out ["A.strm".toList] =
      some (Node.fileN "u".toList) :=
  claim_C4 ["M/a.StRm".toList] 25 "m".toList
    (FS.file "A.strm".toList "u".toList FS.nil) "A.strm".toList [] "u".toList
    (by decide) (by decide)


/-! ### The keep set is a pure function of configuration and catalog -/

lemma processStream_keep (cfg : Cfg) (st : MState) (s : Stream)
    (hg : cfg.useGroup ≠ 1) :
    (processStream cfg st s).keep = keepDelta cfg s ++ st.keep := by
  unfold processStream keepDelta recFiltered recRoot recSegs recFname
  by_cases hex : containsFold cfg.excludeGroups (groupOf cfg s)
  · simp [hex]
  · by_cases hinc : !cfg.includeGroups.isEmpty &&
        !containsFold cfg.includeGroups (groupOf cfg s)
    · simp [hex, hinc]
    · cases hM : findMarker s.tvgName with
      | none =>
          have hTV : isTVShow s.tvgName = false := by
            simp [isTVShow, hM]
          simp [hex, hinc, hTV, processMovie, hg, hM, sanName]
      | some pm =>
          obtain ⟨pre, marker⟩ := pm
          have hTV : isTVShow s.tvgName = true := by
            simp [isTVShow, hM]
          simp [hex, hinc, hTV, processTVShow, hg, hM]

lemma processStreams_keep_aux (cfg : Cfg) (hg : cfg.useGroup ≠ 1) :
    ∀ (streams : List Stream) (st : MState),
      (streams.foldl (processStream cfg) st).keep =
        keepList cfg streams ++ st.keep := by
  intro streams
  induction streams with
  | nil => intro st; simp [keepList]
  | cons s rest ih =>
      intro st
      simp only [List.foldl_cons, keepList]
      rw [ih (processStream cfg st s), processStream_keep cfg st s hg]
      simp

lemma processStreams_keep (cfg : Cfg) (streams : List Stream) (tv mv : FS)
    (hg : cfg.useGroup ≠ 1) :
    (processStreams cfg streams tv mv).keep = keepList cfg streams := by
  unfold processStreams
  rw [processStreams_keep_aux cfg hg streams]
  simp

lemma keepDelta_mem_keepList (cfg : Cfg) {s : Stream} {q : Str} :
    ∀ {streams : List Stream}, s ∈ streams → q ∈ keepDelta cfg s →
      q ∈ keepList cfg streams := by
  intro streams
  induction streams with
  | nil => intro h; simp at h
  | cons t rest ih =>
      intro hmem hq
      rcases List.mem_cons.1 hmem with h | h
      · subst h
        simp only [keepList, List.mem_append]
        exact Or.inr hq
      · simp only [keepList, List.mem_append]
        exact Or.inl (ih h hq)

/-! ### A walk that stays under the limit removes every stale file -/

lemma fileLoop_complete (ci : List Str) (lim : Int) (p : Str) :
    ∀ (fs : FS) (del : Nat), (fileLoop ci lim p fs del).skipped = false →
      topStale ci p (applyMask fs (fileLoop ci lim p fs del).mask) = 0 := by
  intro fs
  induction fs with
  | nil => intro del _; rfl
  | file n c fs ih =>
      intro del hsk
      simp only [fileLoop] at hsk ⊢
      by_cases hge : (del : Int) ≥ lim
      · rw [if_pos hge] at hsk; simp at hsk
      · rw [if_neg hge] at hsk ⊢
        by_cases hst : staleName ci p n = true
        · simp only [hst, if_true] at hsk ⊢
          simp only [applyMask, if_false]
          exact ih (del + 1) hsk
        · simp only [hst, if_false] at hsk ⊢
          simp only [applyMask, if_true, topStale]
          rw [ih del hsk]
          simp [hst]
  | dir n cs fs ihcs ihr =>
      intro del hsk
      simp only [fileLoop] at hsk ⊢
      by_cases hge : (del : Int) ≥ lim
      · rw [if_pos hge] at hsk; simp at hsk
      · rw [if_neg hge] at hsk ⊢
        simp only [applyMask, if_true, topStale]
        exact ihr del hsk

lemma pruneL_complete (ci : List Str) (lim : Int) :
    ∀ (cs : FS) (p : Str) (mask : List Bool) (del : Nat),
      topStale ci p (applyMask cs mask) = 0 →
      ((pruneL ci lim p cs mask del).del : Int) < lim →
      allKept ci p (pruneL ci lim p cs mask del).out = true := by
  intro cs
  induction cs with
  | nil => intro p mask del _ _; rfl
  | file m c r ihr =>
      intro p mask del htop hlt
      cases mask with
      | nil =>
          simp only [applyMask, topStale] at htop
          simp only [pruneL, List.headD_nil, if_true, List.tail_nil]
          simp only [allKept, Bool.and_eq_true]
          rw [Nat.add_eq_zero] at htop
          constructor
          · simpa using htop.1
          · refine ihr p [] del ?_ ?_
            · simpa [applyMask] using htop.2
            · simpa [pruneL] using hlt
      | cons b bs =>
          cases b with
          | true =>
              simp only [applyMask, if_true, topStale] at htop
              simp only [pruneL, List.headD_cons, if_true, List.tail_cons]
              simp only [allKept, Bool.and_eq_true]
              rw [Nat.add_eq_zero] at htop
              constructor
              · simpa using htop.1
              · refine ihr p bs del ?_ ?_
                · exact htop.2
                · simpa [pruneL] using hlt
          | false =>
              simp only [applyMask, if_false] at htop
              simp only [pruneL, List.headD_cons, if_false, List.tail_cons]
              exact ihr p bs del htop (by simpa [pruneL] using hlt)
  | dir m cs2 r ihcs ihr =>
      intro p mask del htop hlt
      cases hb : mask.headD true with
      | false =>
          cases mask with
          | nil => simp at hb
          | cons b bs =>
              simp only [List.headD_cons] at hb
              subst hb
              simp only [applyMask, if_false] at htop
              simp only [pruneL, List.headD_cons, if_false, List.tail_cons]
              exact ihr p bs del htop
                (by simpa [pruneL] using hlt)
      | true =>
          have htop2 : topStale ci p (applyMask r mask.tail) = 0 := by
            cases mask with
            | nil => simpa [applyMask, topStale] using htop
            | cons b bs =>
                simp only [List.headD_cons] at hb
                subst hb
                simpa [applyMask, topStale] using htop
          simp only [pruneL, hb, if_true] at hlt ⊢
          by_cases hsk : (fileLoop ci lim (join2 p m) cs2 del).skipped = true
          · rw [if_pos hsk] at hlt
            have hge := fileLoop_skipped ci lim (join2 p m) cs2 del hsk
            have hq := pruneL_del ci lim r p mask.tail
              (fileLoop ci lim (join2 p m) cs2 del).del
            simp only [] at hlt
            omega
          · rw [if_neg hsk] at hlt ⊢
            by_cases hnil :
                (applyMask cs2 (fileLoop ci lim (join2 p m) cs2 del).mask).isNil = true
            · rw [if_pos hnil] at hlt ⊢
              exact ihr p mask.tail _ htop2 hlt
            · rw [if_neg hnil] at hlt ⊢
              simp only [allKept, Bool.and_eq_true]
              have hq := pruneL_del ci lim r p mask.tail
                (pruneL ci lim (join2 p m) cs2
                  (fileLoop ci lim (join2 p m) cs2 del).mask
                  (fileLoop ci lim (join2 p m) cs2 del).del).del
              refine ⟨?_, ?_⟩
              · refine ihcs (join2 p m)
                  (fileLoop ci lim (join2 p m) cs2 del).mask
                  (fileLoop ci lim (join2 p m) cs2 del).del ?_ ?_
                · exact fileLoop_complete ci lim (join2 p m) cs2 del
                    (by simpa using hsk)
                · simp only [] at hlt
                  omega
              · exact ihr p mask.tail _ htop2 hlt

lemma removeEmptyDirs_complete (ci : List Str) (lim : Int) (root : Str)
    (cs : FS) (hlt : ((removeEmptyDirs ci lim root cs).del : Int) < lim) :
    allKept ci root (removeEmptyDirs ci lim root cs).out = true := by
  simp only [removeEmptyDirs] at hlt ⊢
  by_cases hsk : (fileLoop ci lim root cs 0).skipped = true
  · rw [if_pos hsk] at hlt ⊢
    have hge := fileLoop_skipped ci lim root cs 0 hsk
    simp only [] at hlt
    omega
  · rw [if_neg hsk] at hlt ⊢
    exact pruneL_complete ci lim cs root (fileLoop ci lim root cs 0).mask
      (fileLoop ci lim root cs 0).del
      (fileLoop_complete ci lim root cs 0 (by simpa using hsk)) hlt

lemma allKept_staleCount (ci : List Str) :
    ∀ (p : Str) (fs : FS), allKept ci p fs = true → staleCount ci p fs = 0 := by
  intro p fs
  induction fs generalizing p with
  | nil => intro _; rfl
  | file n c fs ih =>
      intro h
      simp only [allKept, Bool.and_eq_true] at h
      simp only [staleCount, ih p h.2]
      have hst : staleName ci p n = false := by simpa using h.1
      simp [hst]
  | dir n cs fs ihcs ihr =>
      intro h
      simp only [allKept, Bool.and_eq_true] at h
      simp [staleCount, ihcs (join2 p n) h.1, ihr p h.2]

lemma removeEmptyDirs_allKept_rf (ci : List Str) (lim : Int) (root : Str)
    (cs : FS) (h : allKept ci root cs = true) :
    (removeEmptyDirs ci lim root cs).rf = 0 := by
  rw [removeEmptyDirs_rf, allKept_staleCount ci root cs h]
  simp


/-! ### Materialization preserves the no-stale-file invariant -/

/-! ### Materialization preserves the no-stale-file invariant -/

lemma allKept_putHere (ci : List Str) :
    ∀ (fs : FS) (p fname content : Str), allKept ci p fs = true →
      lowerStr (join2 p fname) ∈ ci →
      allKept ci p (putHere fname content fs) = true := by
  intro fs
  induction fs with
  | nil =>
      intro p fname content _ hin
      simp [putHere, allKept, staleName, hin]
  | file m c r ih =>
      intro p fname content h hin
      simp only [allKept, Bool.and_eq_true] at h
      simp only [putHere]
      split
      · rename_i he
        simp only [allKept, Bool.and_eq_true]
        exact ⟨h.1, h.2⟩
      · simp only [allKept, Bool.and_eq_true]
        exact ⟨h.1, ih p fname content h.2 hin⟩
  | dir m cs r ihcs ihr =>
      intro p fname content h hin
      simp only [allKept, Bool.and_eq_true] at h
      simp only [putHere]
      split
      · simp only [allKept, Bool.and_eq_true]
        exact ⟨h.1, h.2⟩
      · simp only [allKept, Bool.and_eq_true]
        exact ⟨h.1, ihr p fname content h.2 hin⟩

lemma allKept_putFile (ci : List Str) :
    ∀ (fs : FS) (p : Str) (segs : List Str) (fname content : Str),
      allKept ci p fs = true →
      lowerStr (joinSegs p (segs ++ [fname])) ∈ ci →
      allKept ci p (putFile fname content fs segs) = true := by
  intro fs
  induction fs with
  | nil =>
      intro p segs fname content h hin
      cases segs with
      | nil => exact allKept_putHere ci FS.nil p fname content h hin
      | cons n rest => simpa [putFile] using h
  | file m c r ih =>
      intro p segs fname content h hin
      cases segs with
      | nil => exact allKept_putHere ci (FS.file m c r) p fname content h hin
      | cons n rest =>
          simp only [allKept, Bool.and_eq_true] at h
          simp only [putFile]
          split
          · simp only [allKept, Bool.and_eq_true]
            exact ⟨h.1, h.2⟩
          · simp only [allKept, Bool.and_eq_true]
            exact ⟨h.1, ih p (n :: rest) fname content h.2 hin⟩
  | dir m cs r ihcs ihr =>
      intro p segs fname content h hin
      cases segs with
      | nil => exact allKept_putHere ci (FS.dir m cs r) p fname content h hin
      | cons n rest =>
          simp only [allKept, Bool.and_eq_true] at h
          simp only [putFile]
          split
          · rename_i he
            simp only [allKept, Bool.and_eq_true]
            refine ⟨?_, h.2⟩
            refine ihcs (join2 p m) rest fname content h.1 ?_
            have : joinSegs p ((n :: rest) ++ [fname]) =
                joinSegs (join2 p n) (rest ++ [fname]) := rfl
            rw [this, ← he] at hin
            exact hin
          · simp only [allKept, Bool.and_eq_true]
            exact ⟨h.1, ihr p (n :: rest) fname content h.2 hin⟩

lemma allKept_mkChain (ci : List Str) :
    ∀ (segs : List Str) (p : Str), allKept ci p (mkChain segs) = true := by
  intro segs
  induction segs with
  | nil => intro p; rfl
  | cons n rest ih =>
      intro p
      simp only [mkChain, allKept, Bool.and_eq_true]
      exact ⟨ih (join2 p n), trivial⟩

lemma allKept_mkdirAll (ci : List Str) :
    ∀ (fs : FS) (p : Str) (segs : List Str), allKept ci p fs = true →
      allKept ci p (mkdirAll fs segs) = true := by
  intro fs
  induction fs with
  | nil =>
      intro p segs _
      cases segs with
      | nil => rfl
      | cons n rest =>
          simp only [mkdirAll, allKept, Bool.and_eq_true]
          exact ⟨allKept_mkChain ci rest (join2 p n), trivial⟩
  | file m c r ih =>
      intro p segs h
      cases segs with
      | nil => exact h
      | cons n rest =>
          simp only [allKept, Bool.and_eq_true] at h
          simp only [mkdirAll]
          split
          · simp only [allKept, Bool.and_eq_true]
            exact ⟨h.1, h.2⟩
          · simp only [allKept, Bool.and_eq_true]
            exact ⟨h.1, ih p (n :: rest) h.2⟩
  | dir m cs r ihcs ihr =>
      intro p segs h
      cases segs with
      | nil => exact h
      | cons n rest =>
          simp only [allKept, Bool.and_eq_true] at h
          simp only [mkdirAll]
          split
          · simp only [allKept, Bool.and_eq_true]
            exact ⟨ihcs (join2 p m) rest h.1, h.2⟩
          · simp only [allKept, Bool.and_eq_true]
            exact ⟨h.1, ihr p (n :: rest) h.2⟩

lemma processStream_allKept (ci : List Str) (cfg : Cfg) (st : MState)
    (s : Stream) (hg : cfg.useGroup ≠ 1)
    (hdel : ∀ q ∈ keepDelta cfg s, lowerStr q ∈ ci)
    (htv : allKept ci cfg.tvRoot st.tv = true)
    (hmv : allKept ci cfg.moviesRoot st.movies = true) :
    allKept ci cfg.tvRoot (processStream cfg st s).tv = true ∧
    allKept ci cfg.moviesRoot (processStream cfg st s).movies = true := by
  unfold processStream
  by_cases hex : containsFold cfg.excludeGroups (groupOf cfg s)
  · simp [hex, htv, hmv]
  · by_cases hinc : !cfg.includeGroups.isEmpty &&
        !containsFold cfg.includeGroups (groupOf cfg s)
    · simp [hex, hinc, htv, hmv]
    · have hq : ∀ q ∈ keepDelta cfg s, lowerStr q ∈ ci := hdel
      unfold keepDelta recFiltered at hq
      rw [if_neg (by simp [hex, hinc])] at hq
      cases hM : findMarker s.tvgName with
      | some pm =>
          obtain ⟨pre, marker⟩ := pm
          have hTV : isTVShow s.tvgName = true := by simp [isTVShow, hM]
          simp only [hex, hinc, hTV, if_true, if_false, Bool.false_eq_true,
            not_false_eq_true]
          unfold processTVShow
          rw [hM]
          rw [if_neg hg]
          constructor
          · refine allKept_putFile ci _ cfg.tvRoot _ _ _ ?_ ?_
            · unfold ensureDir
              split
              · exact allKept_mkdirAll ci st.tv cfg.tvRoot _ htv
              · exact htv
            · apply hq
              unfold recRoot recSegs recFname
              simp [hTV, hM, hg, sanName]
          · exact hmv
      | none =>
          have hTV : isTVShow s.tvgName = false := by simp [isTVShow, hM]
          simp only [hex, hinc, hTV, if_true, if_false, Bool.false_eq_true,
            not_false_eq_true]
          unfold processMovie
          rw [if_neg hg]
          constructor
          · exact htv
          · refine allKept_putFile ci _ cfg.moviesRoot _ _ _ ?_ ?_
            · unfold ensureDir
              split
              · exact allKept_mkdirAll ci st.movies cfg.moviesRoot _ hmv
              · exact hmv
            · apply hq
              unfold recRoot recSegs recFname
              simp [hTV, hM, hg, sanName]

lemma mat_allKept (ci : List Str) (cfg : Cfg) (hg : cfg.useGroup ≠ 1) :
    ∀ (streams : List Stream) (st : MState),
      (∀ s ∈ streams, ∀ q ∈ keepDelta cfg s, lowerStr q ∈ ci) →
      allKept ci cfg.tvRoot st.tv = true →
      allKept ci cfg.moviesRoot st.movies = true →
      allKept ci cfg.tvRoot (streams.foldl (processStream cfg) st).tv = true ∧
      allKept ci cfg.moviesRoot
        (streams.foldl (processStream cfg) st).movies = true := by
  intro streams
  induction streams with
  | nil => intro st _ htv hmv; exact ⟨htv, hmv⟩
  | cons s rest ih =>
      intro st hdel htv hmv
      simp only [List.foldl_cons]
      have hstep := processStream_allKept ci cfg st s hg
        (hdel s (by simp)) htv hmv
      exact ih (processStream cfg st s)
        (fun t ht q hqm => hdel t (by simp [ht]) q hqm) hstep.1 hstep.2


/-! ### Bridges between `statD` and `getNode` -/

lemma getNode_statD_dir : ∀ (fs : FS) (segs : List Str) (ds : FS),
    getNode fs segs = some (Node.dirN ds) → statD fs segs = .found true := by
  intro fs
  induction fs with
  | nil =>
      intro segs ds h
      cases segs with
      | nil => rfl
      | cons n rest => simp [getNode] at h
  | file m c r ih =>
      intro segs ds h
      cases segs with
      | nil => rfl
      | cons n rest =>
          simp only [getNode] at h
          by_cases hmn : m = n
          · rw [if_pos hmn] at h
            by_cases hrest : rest.isEmpty
            · rw [if_pos hrest] at h; simp at h
            · rw [if_neg hrest] at h; simp at h
          · rw [if_neg hmn] at h
            simp only [statD]
            rw [if_neg hmn]
            exact ih (n :: rest) ds h
  | dir m cs r ihcs ihr =>
      intro segs ds h
      cases segs with
      | nil => rfl
      | cons n rest =>
          simp only [getNode] at h
          simp only [statD]
          by_cases hmn : m = n
          · rw [if_pos hmn] at h ⊢
            exact ihcs rest ds h
          · rw [if_neg hmn] at h ⊢
            exact ihr (n :: rest) ds h

lemma statD_found_true_getNode : ∀ (fs : FS) (segs : List Str),
    statD fs segs = .found true → ∃ ds, getNode fs segs = some (Node.dirN ds) := by
  intro fs
  induction fs with
  | nil =>
      intro segs h
      cases segs with
      | nil => exact ⟨FS.nil, rfl⟩
      | cons n rest => simp [statD] at h
  | file m c r ih =>
      intro segs h
      cases segs with
      | nil => exact ⟨FS.file m c r, rfl⟩
      | cons n rest =>
          simp only [statD] at h
          by_cases hmn : m = n
          · rw [if_pos hmn] at h
            by_cases hrest : rest.isEmpty
            · rw [if_pos hrest] at h; simp at h
            · rw [if_neg hrest] at h; simp at h
          · rw [if_neg hmn] at h
            obtain ⟨ds, hds⟩ := ih (n :: rest) h
            refine ⟨ds, ?_⟩
            simp only [getNode]
            rw [if_neg hmn]
            exact hds
  | dir m cs r ihcs ihr =>
      intro segs h
      cases segs with
      | nil => exact ⟨FS.dir m cs r, rfl⟩
      | cons n rest =>
          simp only [statD] at h
          by_cases hmn : m = n
          · rw [if_pos hmn] at h
            obtain ⟨ds, hds⟩ := ihcs rest h
            refine ⟨ds, ?_⟩
            simp only [getNode]
            rw [if_pos hmn]
            exact hds
          · rw [if_neg hmn] at h
            obtain ⟨ds, hds⟩ := ihr (n :: rest) h
            refine ⟨ds, ?_⟩
            simp only [getNode]
            rw [if_neg hmn]
            exact hds

lemma statD_blocker : ∀ (fs : FS) (segs : List Str),
    (statD fs segs = .found false ∨ statD fs segs = .notDir) →
    ∃ q g t c, segs = q ++ g :: t ∧
      getNode fs (q ++ [g]) = some (Node.fileN c) := by
  intro fs
  induction fs with
  | nil =>
      intro segs h
      cases segs with
      | nil => simp [statD] at h
      | cons n rest => simp [statD] at h
  | file m c r ih =>
      intro segs h
      cases segs with
      | nil => simp [statD] at h
      | cons n rest =>
          simp only [statD] at h
          by_cases hmn : m = n
          · refine ⟨[], n, rest, c, rfl, ?_⟩
            simp only [List.nil_append, getNode]
            rw [if_pos hmn]
            simp
          · rw [if_neg hmn] at h
            obtain ⟨q, g, t, c2, hseg, hget⟩ := ih (n :: rest) h
            refine ⟨q, g, t, c2, hseg, ?_⟩
            cases q with
            | nil =>
                simp only [List.nil_append] at hseg hget ⊢
                injection hseg with h1 h2
                simp only [getNode]
                rw [if_neg (by rw [← h1]; exact hmn)]
                exact hget
            | cons q1 qs =>
                injection hseg with h1 h2
                simp only [List.cons_append, getNode]
                rw [if_neg (by rw [← h1]; exact hmn)]
                simpa using hget
  | dir m cs r ihcs ihr =>
      intro segs h
      cases segs with
      | nil => simp [statD] at h
      | cons n rest =>
          simp only [statD] at h
          by_cases hmn : m = n
          · rw [if_pos hmn] at h
            obtain ⟨q, g, t, c2, hseg, hget⟩ := ihcs rest h
            refine ⟨n :: q, g, t, c2, by simp [hseg], ?_⟩
            simp only [List.cons_append, getNode]
            rw [if_pos hmn]
            exact hget
          · rw [if_neg hmn] at h
            obtain ⟨q, g, t, c2, hseg, hget⟩ := ihr (n :: rest) h
            refine ⟨q, g, t, c2, hseg, ?_⟩
            cases q with
            | nil =>
                simp only [List.nil_append] at hseg hget ⊢
                injection hseg with h1 h2
                simp only [getNode]
                rw [if_neg (by rw [← h1]; exact hmn)]
                exact hget
            | cons q1 qs =>
                injection hseg with h1 h2
                simp only [List.cons_append, getNode]
                rw [if_neg (by rw [← h1]; exact hmn)]
                simpa using hget

lemma getNode_blocker_statD : ∀ (fs : FS) (q : List Str) (g : Str) (c : Str)
    (t : List Str), getNode fs (q ++ [g]) = some (Node.fileN c) →
    statD fs (q ++ g :: t) ≠ .missing := by
  intro fs
  induction fs with
  | nil =>
      intro q g c t h
      cases q with
      | nil => simp [getNode] at h
      | cons n rest => simp [getNode] at h
  | file m c2 r ih =>
      intro q g c t h
      cases q with
      | nil =>
          simp only [List.nil_append, getNode] at h ⊢
          by_cases hmg : m = g
          · simp only [statD]
            rw [if_pos hmg]
            split <;> simp
          · rw [if_neg hmg] at h
            simp only [statD]
            rw [if_neg hmg]
            exact ih [] g c t h
      | cons n rest =>
          simp only [List.cons_append, getNode] at h ⊢
          by_cases hmn : m = n
          · rw [if_pos hmn] at h
            rw [if_neg (by simp)] at h
            simp at h
          · rw [if_neg hmn] at h
            simp only [statD]
            rw [if_neg hmn]
            exact ih (n :: rest) g c t h
  | dir m cs r ihcs ihr =>
      intro q g c t h
      cases q with
      | nil =>
          simp only [List.nil_append, getNode] at h ⊢
          by_cases hmg : m = g
          · rw [if_pos hmg] at h
            simp at h
          · rw [if_neg hmg] at h
            simp only [statD]
            rw [if_neg hmg]
            exact ihr [] g c t h
      | cons n rest =>
          simp only [List.cons_append, getNode] at h
          simp only [List.cons_append, statD]
          by_cases hmn : m = n
          · rw [if_pos hmn] at h ⊢
            exact ihcs rest g c t h
          · rw [if_neg hmn] at h ⊢
            exact ihr (n :: rest) g c t h

lemma getNode_append_statD : ∀ (fs : FS) (segs : List Str) (z : Str) (v : Node),
    getNode fs (segs ++ [z]) = some v → statD fs segs = .found true := by
  intro fs
  induction fs with
  | nil =>
      intro segs z v h
      cases segs with
      | nil => rfl
      | cons n rest => simp [getNode] at h
  | file m c r ih =>
      intro segs z v h
      cases segs with
      | nil => rfl
      | cons n rest =>
          simp only [List.cons_append, getNode] at h
          by_cases hmn : m = n
          · rw [if_pos hmn] at h
            rw [if_neg (by simp)] at h
            simp at h
          · rw [if_neg hmn] at h
            simp only [statD]
            rw [if_neg hmn]
            exact ih (n :: rest) z v h
  | dir m cs r ihcs ihr =>
      intro segs z v h
      cases segs with
      | nil => rfl
      | cons n rest =>
          simp only [List.cons_append, getNode] at h
          simp only [statD]
          by_cases hmn : m = n
          · rw [if_pos hmn] at h ⊢
            exact ihcs rest z v h
          · rw [if_neg hmn] at h ⊢
            exact ihr (n :: rest) z v h


/-! ### The materializer only ever adds: `extendsF` facts -/

lemma extendsF_refl (fs : FS) : extendsF fs fs :=
  ⟨fun _ c h => ⟨c, h⟩, fun _ ds h => ⟨ds, h, fun hd => hd⟩⟩

lemma extendsF_trans {a b c : FS} (h1 : extendsF a b) (h2 : extendsF b c) :
    extendsF a c := by
  refine ⟨fun path x hx => ?_, fun path ds hds => ?_⟩
  · obtain ⟨x2, hx2⟩ := h1.1 path x hx
    exact h2.1 path x2 hx2
  · obtain ⟨ds2, hds2, hchild⟩ := h1.2 path ds hds
    obtain ⟨ds3, hds3, hchild2⟩ := h2.2 path ds2 hds2
    exact ⟨ds3, hds3, fun hd => hchild2 (hchild hd)⟩

lemma hasDirChild_putHere (f c : Str) :
    ∀ cs : FS, hasDirChild cs = true → hasDirChild (putHere f c cs) = true := by
  intro cs
  induction cs with
  | nil => intro h; simp [hasDirChild] at h
  | file m c2 r ih =>
      intro h
      simp only [hasDirChild] at h
      simp only [putHere]
      split
      · simpa [hasDirChild] using h
      · simpa [hasDirChild] using ih h
  | dir m cs2 r ih1 ih2 =>
      intro h
      simp only [putHere]
      split <;> simp [hasDirChild]

lemma putHere_extends (f c : Str) : ∀ cs : FS, extendsF cs (putHere f c cs) := by
  intro cs
  induction cs with
  | nil =>
      constructor
      · intro path x hx
        cases path with
        | nil => simp [getNode] at hx
        | cons n rest => simp [getNode] at hx
      · intro path ds hds
        cases path with
        | nil =>
            simp only [getNode, Option.some.injEq] at hds
            injection hds with h2
            refine ⟨FS.file f c FS.nil, rfl, ?_⟩
            rw [← h2]
            simp [hasDirChild]
        | cons n rest => simp [getNode] at hds
  | file m c2 r ih =>
      constructor
      · intro path x hx
        cases path with
        | nil => simp [getNode] at hx
        | cons n rest =>
            simp only [putHere]
            by_cases hmf : m = f
            · rw [if_pos hmf]
              simp only [getNode] at hx ⊢
              by_cases hmn : m = n
              · rw [if_pos hmn] at hx ⊢
                by_cases hrest : rest.isEmpty
                · rw [if_pos hrest] at hx ⊢
                  exact ⟨c, rfl⟩
                · rw [if_neg hrest] at hx
                  simp at hx
              · rw [if_neg hmn] at hx ⊢
                exact ⟨x, hx⟩
            · rw [if_neg hmf]
              simp only [getNode] at hx ⊢
              by_cases hmn : m = n
              · rw [if_pos hmn] at hx ⊢
                exact ⟨x, hx⟩
              · rw [if_neg hmn] at hx ⊢
                exact ih.1 (n :: rest) x hx
      · intro path ds hds
        cases path with
        | nil =>
            simp only [getNode, Option.some.injEq] at hds
            injection hds with h2
            simp only [putHere]
            by_cases hmf : m = f
            · rw [if_pos hmf]
              refine ⟨FS.file m c r, rfl, ?_⟩
              rw [← h2]
              simp [hasDirChild]
            · rw [if_neg hmf]
              refine ⟨FS.file m c2 (putHere f c r), rfl, ?_⟩
              rw [← h2]
              intro hd
              simp only [hasDirChild] at hd ⊢
              exact hasDirChild_putHere f c r hd
        | cons n rest =>
            simp only [putHere]
            by_cases hmn : m = n
            · by_cases hrest : rest.isEmpty
              · rw [getNode, if_pos hmn, if_pos hrest] at hds
                simp at hds
              · rw [getNode, if_pos hmn, if_neg hrest] at hds
                simp at hds
            · by_cases hmf : m = f
              · rw [if_pos hmf]
                rw [getNode, if_neg hmn] at hds
                rw [getNode, if_neg hmn]
                exact ⟨ds, hds, fun hd => hd⟩
              · rw [if_neg hmf]
                rw [getNode, if_neg hmn] at hds
                rw [getNode, if_neg hmn]
                exact ih.2 (n :: rest) ds hds
  | dir m cs2 r ih1 ih2 =>
      constructor
      · intro path x hx
        cases path with
        | nil => simp [getNode] at hx
        | cons n rest =>
            simp only [putHere]
            by_cases hmf : m = f
            · rw [if_pos hmf]
              exact ⟨x, hx⟩
            · rw [if_neg hmf]
              simp only [getNode] at hx ⊢
              by_cases hmn : m = n
              · rw [if_pos hmn] at hx ⊢
                exact ⟨x, hx⟩
              · rw [if_neg hmn] at hx ⊢
                exact ih2.1 (n :: rest) x hx
      · intro path ds hds
        cases path with
        | nil =>
            simp only [getNode, Option.some.injEq] at hds
            injection hds with h2
            simp only [putHere]
            by_cases hmf : m = f
            · rw [if_pos hmf]
              refine ⟨FS.dir m cs2 r, rfl, fun hd => ?_⟩
              rw [← h2] at hd
              exact hd
            · rw [if_neg hmf]
              refine ⟨FS.dir m cs2 (putHere f c r), rfl, fun hd => ?_⟩
              rw [← h2] at hd
              simp [hasDirChild]
        | cons n rest =>
            simp only [putHere]
            by_cases hmf : m = f
            · rw [if_pos hmf]
              exact ⟨ds, hds, fun hd => hd⟩
            · rw [if_neg hmf]
              simp only [getNode] at hds ⊢
              by_cases hmn : m = n
              · rw [if_pos hmn] at hds ⊢
                exact ⟨ds, hds, fun hd => hd⟩
              · rw [if_neg hmn] at hds ⊢
                exact ih2.2 (n :: rest) ds hds


lemma extendsF_nil_root (fs2 : FS) :
    (∀ path c, getNode FS.nil path = some (Node.fileN c) →
       ∃ c2, getNode fs2 path = some (Node.fileN c2)) →
    True := fun _ => trivial

lemma getNode_nil_path : ∀ fs : FS, getNode fs [] = some (Node.dirN fs) := by
  intro fs
  cases fs <;> rfl

lemma extendsF_root {r r' : FS} (h : extendsF r r')
    (hd : hasDirChild r = true) : hasDirChild r' = true := by
  obtain ⟨ds2, hds2, hchild⟩ := h.2 [] r (getNode_nil_path r)
  have : ds2 = r' := by
    rw [getNode_nil_path] at hds2
    injection hds2 with h2
    injection h2 with h3
    exact h3.symm
  rw [this] at hchild
  exact hchild hd

lemma extendsF_file_cong (m c2 : Str) {r r' : FS} (h : extendsF r r') :
    extendsF (FS.file m c2 r) (FS.file m c2 r') := by
  constructor
  · intro path x hx
    cases path with
    | nil => simp [getNode] at hx
    | cons n rest =>
        simp only [getNode] at hx ⊢
        by_cases hmn : m = n
        · rw [if_pos hmn] at hx ⊢
          exact ⟨x, hx⟩
        · rw [if_neg hmn] at hx ⊢
          exact h.1 (n :: rest) x hx
  · intro path ds hds
    cases path with
    | nil =>
        simp only [getNode, Option.some.injEq] at hds
        injection hds with h2
        refine ⟨FS.file m c2 r', rfl, fun hd => ?_⟩
        rw [← h2] at hd
        simp only [hasDirChild] at hd ⊢
        exact extendsF_root h hd
    | cons n rest =>
        simp only [getNode] at hds ⊢
        by_cases hmn : m = n
        · rw [if_pos hmn] at hds ⊢
          by_cases hrest : rest.isEmpty
          · rw [if_pos hrest] at hds; simp at hds
          · rw [if_neg hrest] at hds; simp at hds
        · rw [if_neg hmn] at hds ⊢
          exact h.2 (n :: rest) ds hds

lemma extendsF_dir_congL (m : Str) (r : FS) {cs cs' : FS}
    (h : extendsF cs cs') : extendsF (FS.dir m cs r) (FS.dir m cs' r) := by
  constructor
  · intro path x hx
    cases path with
    | nil => simp [getNode] at hx
    | cons n rest =>
        simp only [getNode] at hx ⊢
        by_cases hmn : m = n
        · rw [if_pos hmn] at hx ⊢
          exact h.1 rest x hx
        · rw [if_neg hmn] at hx ⊢
          exact ⟨x, hx⟩
  · intro path ds hds
    cases path with
    | nil =>
        simp only [getNode, Option.some.injEq] at hds
        injection hds with h2
        refine ⟨FS.dir m cs' r, rfl, fun _ => ?_⟩
        simp [hasDirChild]
    | cons n rest =>
        simp only [getNode] at hds ⊢
        by_cases hmn : m = n
        · rw [if_pos hmn] at hds ⊢
          exact h.2 rest ds hds
        · rw [if_neg hmn] at hds ⊢
          exact ⟨ds, hds, fun hd => hd⟩

lemma extendsF_dir_congR (m : Str) (cs : FS) {r r' : FS}
    (h : extendsF r r') : extendsF (FS.dir m cs r) (FS.dir m cs r') := by
  constructor
  · intro path x hx
    cases path with
    | nil => simp [getNode] at hx
    | cons n rest =>
        simp only [getNode] at hx ⊢
        by_cases hmn : m = n
        · rw [if_pos hmn] at hx ⊢
          exact ⟨x, hx⟩
        · rw [if_neg hmn] at hx ⊢
          exact h.1 (n :: rest) x hx
  · intro path ds hds
    cases path with
    | nil =>
        simp only [getNode, Option.some.injEq] at hds
        injection hds with h2
        refine ⟨FS.dir m cs r', rfl, fun _ => ?_⟩
        simp [hasDirChild]
    | cons n rest =>
        simp only [getNode] at hds ⊢
        by_cases hmn : m = n
        · rw [if_pos hmn] at hds ⊢
          exact ⟨ds, hds, fun hd => hd⟩
        · rw [if_neg hmn] at hds ⊢
          exact h.2 (n :: rest) ds hds

lemma putFile_extends (f c : Str) :
    ∀ (fs : FS) (segs : List Str), extendsF fs (putFile f c fs segs) := by
  intro fs
  induction fs with
  | nil =>
      intro segs
      cases segs with
      | nil => exact putHere_extends f c FS.nil
      | cons n rest => exact extendsF_refl FS.nil
  | file m c2 r ih =>
      intro segs
      cases segs with
      | nil => exact putHere_extends f c (FS.file m c2 r)
      | cons n rest =>
          simp only [putFile]
          split
          · exact extendsF_refl _
          · exact extendsF_file_cong m c2 (ih (n :: rest))
  | dir m cs r ihcs ihr =>
      intro segs
      cases segs with
      | nil => exact putHere_extends f c (FS.dir m cs r)
      | cons n rest =>
          simp only [putFile]
          split
          · exact extendsF_dir_congL m r (ihcs rest)
          · exact extendsF_dir_congR m cs (ihr (n :: rest))

lemma mkdirAll_extends :
    ∀ (fs : FS) (segs : List Str), extendsF fs (mkdirAll fs segs) := by
  intro fs
  induction fs with
  | nil =>
      intro segs
      cases segs with
      | nil => exact extendsF_refl FS.nil
      | cons n rest =>
          simp only [mkdirAll]
          constructor
          · intro path x hx
            cases path with
            | nil => simp [getNode] at hx
            | cons n2 r2 => simp [getNode] at hx
          · intro path ds hds
            cases path with
            | nil =>
                simp only [getNode, Option.some.injEq] at hds
                injection hds with h2
                refine ⟨FS.dir n (mkChain rest) FS.nil, rfl, fun hd => ?_⟩
                rw [← h2] at hd
                simp [hasDirChild] at hd
            | cons n2 r2 => simp [getNode] at hds
  | file m c2 r ih =>
      intro segs
      cases segs with
      | nil => exact extendsF_refl _
      | cons n rest =>
          simp only [mkdirAll]
          split
          · exact extendsF_refl _
          · exact extendsF_file_cong m c2 (ih (n :: rest))
  | dir m cs r ihcs ihr =>
      intro segs
      cases segs with
      | nil => exact extendsF_refl _
      | cons n rest =>
          simp only [mkdirAll]
          split
          · exact extendsF_dir_congL m r (ihcs rest)
          · exact extendsF_dir_congR m cs (ihr (n :: rest))

lemma recInv_mono {ci : List Str} {root : Str} {segs : List Str} {fname : Str}
    {fs fs2 : FS} (h : recInv ci root segs fname fs) (he : extendsF fs fs2) :
    recInv ci root segs fname fs2 := by
  rcases h with ⟨c, hget, hmem⟩ | ⟨q, g, t, c, hseg, hns, hget⟩ | ⟨ds, hget, hd⟩
  · obtain ⟨c2, hget2⟩ := he.1 _ c hget
    exact Or.inl ⟨c2, hget2, hmem⟩
  · obtain ⟨c2, hget2⟩ := he.1 _ c hget
    exact Or.inr (Or.inl ⟨q, g, t, c2, hseg, hns, hget2⟩)
  · obtain ⟨ds2, hget2, hchild⟩ := he.2 _ ds hget
    exact Or.inr (Or.inr ⟨ds2, hget2, hchild hd⟩)

lemma statD_ne_missing_mono {fs fs2 : FS} {segs : List Str}
    (h : statD fs segs ≠ .missing) (he : extendsF fs fs2) :
    statD fs2 segs ≠ .missing := by
  cases hst : statD fs segs with
  | missing => exact absurd hst h
  | notDir =>
      obtain ⟨q, g, t, c, hseg, hget⟩ := statD_blocker fs segs (Or.inr hst)
      obtain ⟨c2, hget2⟩ := he.1 _ c hget
      rw [hseg]
      exact getNode_blocker_statD fs2 q g c2 t hget2
  | found isDir =>
      cases isDir with
      | true =>
          obtain ⟨ds, hds⟩ := statD_found_true_getNode fs segs hst
          obtain ⟨ds2, hds2, _⟩ := he.2 _ ds hds
          rw [getNode_statD_dir fs2 segs ds2 hds2]
          simp
      | false =>
          obtain ⟨q, g, t, c, hseg, hget⟩ := statD_blocker fs segs (Or.inl hst)
          obtain ⟨c2, hget2⟩ := he.1 _ c hget
          rw [hseg]
          exact getNode_blocker_statD fs2 q g c2 t hget2


/-! ### What the guarded write leaves at the target path -/

lemma hasDirChild_of_getNode_dir (g : Str) :
    ∀ (cs ds : FS), getNode cs [g] = some (Node.dirN ds) →
      hasDirChild cs = true := by
  intro cs
  induction cs with
  | nil => intro ds h; simp [getNode] at h
  | file m c r ih =>
      intro ds h
      simp only [getNode] at h
      by_cases hmg : m = g
      · rw [if_pos hmg] at h
        rw [if_pos (by simp)] at h
        simp at h
      · rw [if_neg hmg] at h
        simp only [hasDirChild]
        exact ih ds h
  | dir m cs2 r ih1 ih2 => intro ds _; simp [hasDirChild]

lemma putHere_cases (f c : Str) :
    ∀ cs : FS, getNode (putHere f c cs) [f] = some (Node.fileN c) ∨
      (∃ ds, getNode cs [f] = some (Node.dirN ds) ∧ putHere f c cs = cs) := by
  intro cs
  induction cs with
  | nil =>
      left
      simp [putHere, getNode]
  | file m c2 r ih =>
      by_cases hmf : m = f
      · left
        simp [putHere, hmf, getNode]
      · rcases ih with h | ⟨ds, hds, heq⟩
        · left
          simp only [putHere]
          rw [if_neg hmf]
          simp only [getNode]
          rw [if_neg hmf]
          exact h
        · right
          refine ⟨ds, ?_, ?_⟩
          · simp only [getNode]
            rw [if_neg hmf]
            exact hds
          · simp only [putHere]
            rw [if_neg hmf, heq]
  | dir m cs2 r ih1 ih2 =>
      by_cases hmf : m = f
      · right
        refine ⟨cs2, ?_, ?_⟩
        · simp only [getNode]
          rw [if_pos hmf]
        · simp only [putHere]
          rw [if_pos hmf]
      · rcases ih2 with h | ⟨ds, hds, heq⟩
        · left
          simp only [putHere]
          rw [if_neg hmf]
          simp only [getNode]
          rw [if_neg hmf]
          exact h
        · right
          refine ⟨ds, ?_, ?_⟩
          · simp only [getNode]
            rw [if_neg hmf]
            exact hds
          · simp only [putHere]
            rw [if_neg hmf, heq]

lemma putFile_deep (f c : Str) :
    ∀ (fs : FS) (segs : List Str), statD fs segs = .found true →
      getNode (putFile f c fs segs) (segs ++ [f]) = some (Node.fileN c) ∨
      (∃ ds, getNode (putFile f c fs segs) segs = some (Node.dirN ds) ∧
        hasDirChild ds = true) := by
  intro fs
  induction fs with
  | nil =>
      intro segs hst
      cases segs with
      | nil =>
          rcases putHere_cases f c FS.nil with h | ⟨ds, hds, heq⟩
          · left; simpa using h
          · simp [getNode] at hds
      | cons n rest => simp [statD] at hst
  | file m c2 r ih =>
      intro segs hst
      cases segs with
      | nil =>
          rcases putHere_cases f c (FS.file m c2 r) with h | ⟨ds, hds, heq⟩
          · left; simpa using h
          · right
            refine ⟨putHere f c (FS.file m c2 r), ?_, ?_⟩
            · simp only [putFile]
              rw [getNode_nil_path]
            · rw [heq]
              exact hasDirChild_of_getNode_dir f (FS.file m c2 r) ds hds
      | cons n rest =>
          simp only [statD] at hst
          by_cases hmn : m = n
          · rw [if_pos hmn] at hst
            split at hst <;> simp at hst
          · rw [if_neg hmn] at hst
            simp only [putFile]
            rw [if_neg hmn]
            rcases ih (n :: rest) hst with h | ⟨ds, hds, hd⟩
            · left
              simp only [List.cons_append, getNode]
              rw [if_neg hmn]
              exact h
            · right
              refine ⟨ds, ?_, hd⟩
              simp only [getNode]
              rw [if_neg hmn]
              exact hds
  | dir m cs r ihcs ihr =>
      intro segs hst
      cases segs with
      | nil =>
          rcases putHere_cases f c (FS.dir m cs r) with h | ⟨ds, hds, heq⟩
          · left; simpa using h
          · right
            refine ⟨putHere f c (FS.dir m cs r), ?_, ?_⟩
            · simp only [putFile]
              rw [getNode_nil_path]
            · rw [heq]
              simp [hasDirChild]
      | cons n rest =>
          simp only [statD] at hst
          by_cases hmn : m = n
          · rw [if_pos hmn] at hst
            simp only [putFile]
            rw [if_pos hmn]
            rcases ihcs rest hst with h | ⟨ds, hds, hd⟩
            · left
              simp only [List.cons_append, getNode]
              rw [if_pos hmn]
              exact h
            · right
              refine ⟨ds, ?_, hd⟩
              simp only [getNode]
              rw [if_pos hmn]
              exact hds
          · rw [if_neg hmn] at hst
            simp only [putFile]
            rw [if_neg hmn]
            rcases ihr (n :: rest) hst with h | ⟨ds, hds, hd⟩
            · left
              simp only [List.cons_append, getNode]
              rw [if_neg hmn]
              exact h
            · right
              refine ⟨ds, ?_, hd⟩
              simp only [getNode]
              rw [if_neg hmn]
              exact hds

lemma mkChain_found : ∀ t : List Str, statD (mkChain t) t = .found true := by
  intro t
  induction t with
  | nil => rfl
  | cons n rest ih =>
      simp only [mkChain, statD, if_pos rfl]
      exact ih

lemma mkdirAll_found : ∀ (fs : FS) (segs : List Str),
    statD fs segs = .missing → statD (mkdirAll fs segs) segs = .found true := by
  intro fs
  induction fs with
  | nil =>
      intro segs hst
      cases segs with
      | nil => rfl
      | cons n rest =>
          simp only [mkdirAll, statD, if_pos rfl]
          exact mkChain_found rest
  | file m c2 r ih =>
      intro segs hst
      cases segs with
      | nil => rfl
      | cons n rest =>
          simp only [statD] at hst
          by_cases hmn : m = n
          · rw [if_pos hmn] at hst
            split at hst <;> simp at hst
          · rw [if_neg hmn] at hst
            simp only [mkdirAll]
            rw [if_neg hmn]
            simp only [statD]
            rw [if_neg hmn]
            exact ih (n :: rest) hst
  | dir m cs r ihcs ihr =>
      intro segs hst
      cases segs with
      | nil => rfl
      | cons n rest =>
          simp only [statD] at hst
          by_cases hmn : m = n
          · rw [if_pos hmn] at hst
            simp only [mkdirAll]
            rw [if_pos hmn]
            simp only [statD]
            rw [if_pos hmn]
            exact ihcs rest hst
          · rw [if_neg hmn] at hst
            simp only [mkdirAll]
            rw [if_neg hmn]
            simp only [statD]
            rw [if_neg hmn]
            exact ihr (n :: rest) hst


/-! ### Generated directory segments never carry the stream extension -/

lemma isStrmName_of_no_dot {g : Str} (h : ∀ a ∈ g, a ≠ '.') :
    isStrmName g = false := by
  by_contra hc
  simp only [Bool.not_eq_false] at hc
  simp only [isStrmName] at hc
  have hsuf : ".strm".toList <:+ g := by
    exact List.isSuffixOf_iff_suffix.1 hc
  obtain ⟨t, ht⟩ := hsuf
  have hdot : '.' ∈ g := by
    rw [← ht]
    refine List.mem_append.2 (Or.inr ?_)
    decide
  exact absurd rfl (h '.' hdot)


lemma isStrmName_short {g : Str} (h : g.length < 5) : isStrmName g = false := by
  by_contra hc
  simp only [Bool.not_eq_false] at hc
  simp only [isStrmName] at hc
  have hsuf : ".strm".toList <:+ g := List.isSuffixOf_iff_suffix.1 hc
  have := hsuf.length_le
  simp at this
  omega

lemma recSegs_nonstrm (s : Stream) : ∀ g ∈ recSegs s, isStrmName g = false := by
  intro g hg
  cases hM : findMarker s.tvgName with
  | none =>
      simp only [recSegs, hM, segsOf, List.mem_filter] at hg
      obtain ⟨hmem, -⟩ := hg
      simp only [List.mem_singleton] at hmem
      rw [hmem]
      refine isStrmName_of_no_dot ?_
      intro a ha
      exact san_no_dot ha
  | some pm =>
      obtain ⟨pre, marker⟩ := pm
      simp only [recSegs, hM, segsOf, List.mem_filter] at hg
      obtain ⟨hmem, -⟩ := hg
      simp only [List.mem_cons, List.mem_singleton] at hmem
      rcases hmem with h1 | h1 | h1
      · rw [h1]
        refine isStrmName_of_no_dot ?_
        intro a ha
        exact san_no_dot ha
      · rw [h1]
        refine isStrmName_short ?_
        have := List.length_take 3 marker
        omega
      · simp at h1


/-! ### One record write establishes the invariant -/

lemma putFile_recInv (ci : List Str) (root : Str) (segs : List Str)
    (f url : Str) (fs : FS)
    (hns : ∀ g ∈ segs, isStrmName g = false)
    (hci : lowerStr (joinSegs root (segs ++ [f])) ∈ ci) :
    recInv ci root segs f (putFile f url (ensureDir fs segs).1 segs) := by
  cases hst : statD fs segs with
  | missing =>
      simp only [ensureDir, hst]
      have hfound := mkdirAll_found fs segs hst
      rcases putFile_deep f url (mkdirAll fs segs) segs hfound with h | ⟨ds, hds, hd⟩
      · exact Or.inl ⟨url, h, hci⟩
      · exact Or.inr (Or.inr ⟨ds, hds, hd⟩)
  | notDir =>
      simp only [ensureDir, hst]
      obtain ⟨q, g, t, c, hseg, hget⟩ := statD_blocker fs segs (Or.inr hst)
      have hgseg : g ∈ segs := by
        rw [hseg]
        exact List.mem_append.2 (Or.inr (List.mem_cons_self g t))
      obtain ⟨c2, hget2⟩ := (putFile_extends f url fs segs).1 _ c hget
      exact Or.inr (Or.inl ⟨q, g, t, c2, hseg, hns g hgseg, hget2⟩)
  | found isDir =>
      cases isDir with
      | true =>
          simp only [ensureDir, hst]
          rcases putFile_deep f url fs segs hst with h | ⟨ds, hds, hd⟩
          · exact Or.inl ⟨url, h, hci⟩
          · exact Or.inr (Or.inr ⟨ds, hds, hd⟩)
      | false =>
          simp only [ensureDir, hst]
          obtain ⟨q, g, t, c, hseg, hget⟩ := statD_blocker fs segs (Or.inl hst)
          have hgseg : g ∈ segs := by
            rw [hseg]
            exact List.mem_append.2 (Or.inr (List.mem_cons_self g t))
          obtain ⟨c2, hget2⟩ := (putFile_extends f url fs segs).1 _ c hget
          exact Or.inr (Or.inl ⟨q, g, t, c2, hseg, hns g hgseg, hget2⟩)


/-! ### The walk never removes a directory that has a subdirectory entry -/

lemma hasDirChild_applyMask (ci : List Str) (p : Str) :
    ∀ (cs : FS) (mask : List Bool), maskHonest ci p cs mask = true →
      hasDirChild cs = true → hasDirChild (applyMask cs mask) = true := by
  intro cs
  induction cs with
  | nil => intro mask _ hd; simp [hasDirChild] at hd
  | file m c r ih =>
      intro mask hh hd
      simp only [hasDirChild] at hd
      cases mask with
      | nil => simpa [applyMask, hasDirChild] using hd
      | cons b bs =>
          simp only [maskHonest, List.headD_cons, List.tail_cons,
            Bool.and_eq_true] at hh
          cases b with
          | true =>
              simp only [applyMask, if_true, hasDirChild]
              exact ih bs hh.2 hd
          | false =>
              simp only [applyMask, if_false]
              exact ih bs hh.2 hd
  | dir m cs2 r ih1 ih2 =>
      intro mask hh _
      cases mask with
      | nil => simp [applyMask, hasDirChild]
      | cons b bs =>
          simp only [maskHonest, List.headD_cons, Bool.and_eq_true] at hh
          rw [hh.1]
          simp [applyMask, hasDirChild]

lemma pruneL_dir_keeps (ci : List Str) (lim : Int) :
    ∀ (cs : FS) (p : Str) (mask : List Bool) (del : Nat) (n : Str)
      (rest : List Str) (ds : FS),
      maskHonest ci p cs mask = true →
      getNode cs (n :: rest) = some (Node.dirN ds) →
      hasDirChild ds = true →
      ∃ ds2, getNode (pruneL ci lim p cs mask del).out (n :: rest) =
        some (Node.dirN ds2) := by
  intro cs
  induction cs with
  | nil => intro p mask del n rest ds _ hget _; simp [getNode] at hget
  | file m c r ihr =>
      intro p mask del n rest ds hh hget hdc
      simp only [maskHonest, Bool.and_eq_true] at hh
      simp only [getNode] at hget
      by_cases hmn : m = n
      · rw [if_pos hmn] at hget
        split at hget <;> simp at hget
      · rw [if_neg hmn] at hget
        simp only [pruneL]
        split
        · simp only [getNode]
          rw [if_neg hmn]
          exact ihr p mask.tail del n rest ds hh.2 hget hdc
        · exact ihr p mask.tail del n rest ds hh.2 hget hdc
  | dir m cs2 r ihcs ihr =>
      intro p mask del n rest ds hh hget hdc
      simp only [maskHonest, Bool.and_eq_true] at hh
      simp only [getNode] at hget
      by_cases hmn : m = n
      · rw [if_pos hmn] at hget
        cases rest with
        | nil =>
            rw [getNode_nil_path] at hget
            have hds : ds = cs2 := by
              injection hget with h2
              injection h2 with h3
              exact h3.symm
            have hdc2 : hasDirChild cs2 = true := by
              rw [← hds]
              exact hdc
            simp only [pruneL, hh.1, if_true]
            split
            · refine ⟨applyMask cs2 (fileLoop ci lim (join2 p m) cs2 del).mask, ?_⟩
              simp only [getNode]
              rw [if_pos hmn]
            · split
              · rename_i hnil
                exfalso
                have hkd := hasDirChild_applyMask ci (join2 p m) cs2
                  (fileLoop ci lim (join2 p m) cs2 del).mask
                  (fileLoop_mask_honest ci lim (join2 p m) cs2 del) hdc2
                rw [isNil_eq hnil] at hkd
                simp [hasDirChild] at hkd
              · refine ⟨(pruneL ci lim (join2 p m) cs2
                  (fileLoop ci lim (join2 p m) cs2 del).mask
                  (fileLoop ci lim (join2 p m) cs2 del).del).out, ?_⟩
                simp only [getNode]
                rw [if_pos hmn]
        | cons n2 rest2 =>
            have hkept := applyMask_keeps ci (join2 p m) cs2
              (fileLoop ci lim (join2 p m) cs2 del).mask n2 rest2
              (Node.dirN ds)
              (fileLoop_mask_honest ci lim (join2 p m) cs2 del) hget
              (fun c2 hv _ => by simp at hv)
            simp only [pruneL, hh.1, if_true]
            split
            · refine ⟨ds, ?_⟩
              simp only [getNode]
              rw [if_pos hmn]
              exact hkept
            · split
              · rename_i hnil
                rw [isNil_eq hnil] at hkept
                simp [getNode] at hkept
              · obtain ⟨ds2, hds2⟩ := ihcs (join2 p m)
                  (fileLoop ci lim (join2 p m) cs2 del).mask
                  (fileLoop ci lim (join2 p m) cs2 del).del n2 rest2 ds
                  (fileLoop_mask_honest ci lim (join2 p m) cs2 del) hget hdc
                refine ⟨ds2, ?_⟩
                simp only [getNode]
                rw [if_pos hmn]
                exact hds2
      · rw [if_neg hmn] at hget
        simp only [pruneL, hh.1, if_true]
        split
        · obtain ⟨ds2, hds2⟩ := ihr p mask.tail _ n rest ds hh.2 hget hdc
          refine ⟨ds2, ?_⟩
          simp only [getNode]
          rw [if_neg hmn]
          exact hds2
        · split
          · exact ihr p mask.tail _ n rest ds hh.2 hget hdc
          · obtain ⟨ds2, hds2⟩ := ihr p mask.tail _ n rest ds hh.2 hget hdc
            refine ⟨ds2, ?_⟩
            simp only [getNode]
            rw [if_neg hmn]
            exact hds2

lemma removeEmptyDirs_dir_keeps (ci : List Str) (lim : Int) (root : Str)
    (cs : FS) (n : Str) (rest : List Str) (ds : FS)
    (hget : getNode cs (n :: rest) = some (Node.dirN ds))
    (hdc : hasDirChild ds = true) :
    ∃ ds2, getNode (removeEmptyDirs ci lim root cs).out (n :: rest) =
      some (Node.dirN ds2) := by
  simp only [removeEmptyDirs]
  split
  · exact ⟨ds, applyMask_keeps ci root cs (fileLoop ci lim root cs 0).mask n rest
      (Node.dirN ds) (fileLoop_mask_honest ci lim root cs 0) hget
      (fun c2 hv _ => by simp at hv)⟩
  · exact pruneL_dir_keeps ci lim cs root (fileLoop ci lim root cs 0).mask
      (fileLoop ci lim root cs 0).del n rest ds
      (fileLoop_mask_honest ci lim root cs 0) hget hdc

/-- After a pruning walk, a path protected by the invariant is still not
missing. -/
lemma recInv_pruned (ci : List Str) (lim : Int) (root : Str) (segs : List Str)
    (fname : Str) (fs : FS) (h : recInv ci root segs fname fs) :
    statD (removeEmptyDirs ci lim root fs).out segs ≠ .missing := by
  rcases h with ⟨c, hget, hmem⟩ | ⟨q, g, t, c, hseg, hns, hget⟩ | ⟨ds, hget, hd⟩
  · cases segs with
    | nil => simp [statD]
    | cons a as =>
        have hget2 : getNode fs (a :: (as ++ [fname])) = some (Node.fileN c) := by
          simpa using hget
        have hsurv := removeEmptyDirs_keeps ci lim root fs a (as ++ [fname]) c
          hget2 (Or.inr (by simpa using hmem))
        have hfound := getNode_append_statD (removeEmptyDirs ci lim root fs).out
          (a :: as) fname (Node.fileN c) (by simpa using hsurv)
        rw [hfound]
        simp
  · rw [hseg]
    cases q with
    | nil =>
        have hsurv := removeEmptyDirs_keeps ci lim root fs g [] c
          (by simpa using hget) (Or.inl (by simpa using hns))
        exact getNode_blocker_statD _ [] g c t (by simpa using hsurv)
    | cons a as =>
        have hget2 : getNode fs (a :: (as ++ [g])) = some (Node.fileN c) := by
          simpa using hget
        have hlast : (as ++ [g]).getLastD a = g := by
          rw [List.getLastD_concat]
        have hsurv := removeEmptyDirs_keeps ci lim root fs a (as ++ [g]) c
          hget2 (Or.inl (by rw [hlast]; exact hns))
        exact getNode_blocker_statD _ (a :: as) g c t (by simpa using hsurv)
  · cases segs with
    | nil => simp [statD]
    | cons a as =>
        obtain ⟨ds2, hds2⟩ := removeEmptyDirs_dir_keeps ci lim root fs a as ds
          hget hd
        rw [getNode_statD_dir _ (a :: as) ds2 hds2]
        simp


/-! ### Each materializer step extends the trees -/

lemma processStream_extends (cfg : Cfg) (st : MState) (s : Stream) :
    extendsF st.tv (processStream cfg st s).tv ∧
    extendsF st.movies (processStream cfg st s).movies := by
  by_cases hex : containsFold cfg.excludeGroups (groupOf cfg s)
  · simp only [processStream, hex, if_true]
    exact ⟨extendsF_refl _, extendsF_refl _⟩
  · by_cases hinc : (!cfg.includeGroups.isEmpty &&
        !containsFold cfg.includeGroups (groupOf cfg s)) = true
    · simp only [processStream, hex, hinc, Bool.false_eq_true, if_false,
        if_true]
      exact ⟨extendsF_refl _, extendsF_refl _⟩
    · by_cases hTV : isTVShow s.tvgName = true
      · cases hM : findMarker s.tvgName with
        | none =>
            exfalso
            simp [isTVShow, hM] at hTV
        | some pm =>
            obtain ⟨pre, marker⟩ := pm
            simp only [processStream, hex, hinc, hTV, Bool.false_eq_true,
              if_false, if_true]
            unfold processTVShow
            rw [hM]
            constructor
            · refine extendsF_trans ?_ (putFile_extends _ _ _ _)
              unfold ensureDir
              split
              · exact mkdirAll_extends _ _
              · exact extendsF_refl _
            · exact extendsF_refl _
      · simp only [processStream, hex, hinc, hTV, Bool.false_eq_true,
          if_false, if_true]
        unfold processMovie
        constructor
        · exact extendsF_refl _
        · refine extendsF_trans ?_ (putFile_extends _ _ _ _)
          unfold ensureDir
          split
          · exact mkdirAll_extends _ _
          · exact extendsF_refl _

lemma fold_extends (cfg : Cfg) :
    ∀ (streams : List Stream) (st : MState),
      extendsF st.tv (streams.foldl (processStream cfg) st).tv ∧
      extendsF st.movies (streams.foldl (processStream cfg) st).movies := by
  intro streams
  induction streams with
  | nil => intro st; exact ⟨extendsF_refl _, extendsF_refl _⟩
  | cons s rest ih =>
      intro st
      simp only [List.foldl_cons]
      obtain ⟨h1, h2⟩ := processStream_extends cfg st s
      obtain ⟨h3, h4⟩ := ih (processStream cfg st s)
      exact ⟨extendsF_trans h1 h3, extendsF_trans h2 h4⟩


/-! ### After materializing, every record satisfies the invariant -/

lemma processStream_estab (cfg : Cfg) (st : MState) (s : Stream)
    (ci : List Str) (hg : cfg.useGroup ≠ 1) (hf : recFiltered cfg s = false)
    (hci : lowerStr (joinSegs (recRoot cfg s)
      (recSegs s ++ [recFname s])) ∈ ci) :
    (isTVShow s.tvgName = true →
      recInv ci cfg.tvRoot (recSegs s) (recFname s)
        (processStream cfg st s).tv) ∧
    (isTVShow s.tvgName = false →
      recInv ci cfg.moviesRoot (recSegs s) (recFname s)
        (processStream cfg st s).movies) := by
  have hex : containsFold cfg.excludeGroups (groupOf cfg s) = false := by
    simp only [recFiltered, Bool.or_eq_false_iff] at hf
    exact hf.1
  have hinc : (!cfg.includeGroups.isEmpty &&
      !containsFold cfg.includeGroups (groupOf cfg s)) = false := by
    simp only [recFiltered, Bool.or_eq_false_iff] at hf
    exact hf.2
  by_cases hTV : isTVShow s.tvgName = true
  · cases hM : findMarker s.tvgName with
    | none =>
        exfalso
        simp [isTVShow, hM] at hTV
    | some pm =>
        obtain ⟨pre, marker⟩ := pm
        refine ⟨fun _ => ?_, fun hc => absurd (hTV.symm.trans hc) (by simp)⟩
        simp only [processStream, hex, hinc, hTV, Bool.false_eq_true,
          if_false, if_true]
        unfold processTVShow
        rw [hM, if_neg hg]
        have hsegs : segsOf ([] ++
            [sanitizeFileName (normalizeName pre), marker.take 3]) =
            recSegs s := by
          simp [recSegs, hM]
        have hfn : sanName s.tvgName ++ ".strm".toList = recFname s := rfl
        have hroot : recRoot cfg s = cfg.tvRoot := by
          simp [recRoot, hTV]
        rw [hroot] at hci
        simp only [hsegs, hfn]
        exact putFile_recInv ci cfg.tvRoot (recSegs s) (recFname s) s.url st.tv
          (recSegs_nonstrm s) hci
  · have hTV2 : isTVShow s.tvgName = false := by
      simpa using hTV
    refine ⟨fun hc => absurd (hTV2.symm.trans hc) (by simp), fun _ => ?_⟩
    simp only [processStream, hex, hinc, hTV2, Bool.false_eq_true,
      if_false, if_true]
    unfold processMovie
    rw [if_neg hg]
    have hsegs : segsOf ([] ++ [sanName s.tvgName]) = recSegs s := by
      have hM : findMarker s.tvgName = none := by
        simp only [isTVShow] at hTV2
        exact Option.not_isSome_iff_eq_none.1 (by simp [hTV2])
      simp [recSegs, hM, sanName]
    have hroot : recRoot cfg s = cfg.moviesRoot := by
      simp [recRoot, hTV2]
    rw [hroot] at hci
    have hfn : sanName s.tvgName ++ ".strm".toList = recFname s := rfl
    simp only [hsegs]
    have hmn : sanName s.tvgName ++ ".strm".toList = recFname s := rfl
    rw [hmn]
    exact putFile_recInv ci cfg.moviesRoot (recSegs s) (recFname s) s.url
      st.movies (recSegs_nonstrm s) hci

lemma mat_recInv (cfg : Cfg) (ci : List Str) (hg : cfg.useGroup ≠ 1) :
    ∀ (streams : List Stream) (st : MState) (s : Stream), s ∈ streams →
      recFiltered cfg s = false →
      lowerStr (joinSegs (recRoot cfg s) (recSegs s ++ [recFname s])) ∈ ci →
      (isTVShow s.tvgName = true →
        recInv ci cfg.tvRoot (recSegs s) (recFname s)
          (streams.foldl (processStream cfg) st).tv) ∧
      (isTVShow s.tvgName = false →
        recInv ci cfg.moviesRoot (recSegs s) (recFname s)
          (streams.foldl (processStream cfg) st).movies) := by
  intro streams
  induction streams with
  | nil => intro st s hmem; simp at hmem
  | cons t rest ih =>
      intro st s hmem hf hci
      simp only [List.foldl_cons]
      rcases List.mem_cons.1 hmem with h | h
      · subst h
        obtain ⟨e1, e2⟩ := processStream_estab cfg st s ci hg hf hci
        obtain ⟨x1, x2⟩ := fold_extends cfg rest (processStream cfg st s)
        exact ⟨fun hTV => recInv_mono (e1 hTV) x1,
               fun hTV => recInv_mono (e2 hTV) x2⟩
      · exact ih (processStream cfg st t) s h hf hci


/-! ### The second run creates no directories -/

lemma ensureDir_noCreate {fs : FS} {segs : List Str}
    (h : statD fs segs ≠ .missing) : ensureDir fs segs = (fs, false) := by
  unfold ensureDir
  cases hst : statD fs segs with
  | missing => exact absurd hst h
  | found b => rfl
  | notDir => rfl

lemma processStream_noCreate (cfg : Cfg) (st : MState) (s : Stream)
    (hg : cfg.useGroup ≠ 1)
    (hstat : recFiltered cfg s = false →
      statD (if isTVShow s.tvgName then st.tv else st.movies)
        (recSegs s) ≠ .missing) :
    (processStream cfg st s).createdDirs = st.createdDirs := by
  by_cases hex : containsFold cfg.excludeGroups (groupOf cfg s)
  · simp [processStream, hex]
  · by_cases hinc : (!cfg.includeGroups.isEmpty &&
        !containsFold cfg.includeGroups (groupOf cfg s)) = true
    · simp [processStream, hex, hinc]
    · have hf : recFiltered cfg s = false := by
        simp only [recFiltered, Bool.or_eq_false_iff]
        refine ⟨by simpa using hex, by simpa using hinc⟩
      have hstat2 := hstat hf
      by_cases hTV : isTVShow s.tvgName = true
      · cases hM : findMarker s.tvgName with
        | none =>
            exfalso
            simp [isTVShow, hM] at hTV
        | some pm =>
            obtain ⟨pre, marker⟩ := pm
            simp only [processStream, hex, hinc, hTV, Bool.false_eq_true,
              if_false, if_true]
            unfold processTVShow
            rw [hM, if_neg hg]
            rw [if_pos hTV] at hstat2
            have hsegs : segsOf ([] ++
                [sanitizeFileName (normalizeName pre), marker.take 3]) =
                recSegs s := by
              simp [recSegs, hM]
            simp only [hsegs]
            rw [ensureDir_noCreate hstat2]
            simp
      · have hTV2 : isTVShow s.tvgName = false := by simpa using hTV
        simp only [processStream, hex, hinc, hTV2, Bool.false_eq_true,
          if_false, if_true]
        unfold processMovie
        rw [if_neg hg]
        rw [if_neg (by simp [hTV2])] at hstat2
        have hsegs : segsOf ([] ++ [sanName s.tvgName]) = recSegs s := by
          have hM : findMarker s.tvgName = none := by
            simp only [isTVShow] at hTV2
            exact Option.not_isSome_iff_eq_none.1 (by simp [hTV2])
          simp [recSegs, hM, sanName]
        simp only [hsegs]
        rw [ensureDir_noCreate hstat2]
        simp

lemma fold_noCreate (cfg : Cfg) (hg : cfg.useGroup ≠ 1) :
    ∀ (streams : List Stream) (st : MState),
      (∀ s ∈ streams, recFiltered cfg s = false →
        statD (if isTVShow s.tvgName then st.tv else st.movies)
          (recSegs s) ≠ .missing) →
      (streams.foldl (processStream cfg) st).createdDirs = st.createdDirs := by
  intro streams
  induction streams with
  | nil => intro st _; rfl
  | cons s rest ih =>
      intro st hstat
      simp only [List.foldl_cons]
      have hstep := processStream_noCreate cfg st s hg
        (fun hf => hstat s (by simp) hf)
      have hpres : ∀ t ∈ rest, recFiltered cfg t = false →
          statD (if isTVShow t.tvgName then (processStream cfg st s).tv
            else (processStream cfg st s).movies) (recSegs t) ≠ .missing := by
        intro t ht hf2
        obtain ⟨x1, x2⟩ := processStream_extends cfg st s
        have hbase := hstat t (by simp [ht]) hf2
        by_cases hT : isTVShow t.tvgName = true
        · rw [if_pos hT] at hbase ⊢
          exact statD_ne_missing_mono hbase x1
        · rw [if_neg hT] at hbase ⊢
          exact statD_ne_missing_mono hbase x2
      rw [ih (processStream cfg st s) hpres, hstep]


/-! ### Assembling the two-run statement -/

lemma runOnce_tv (cfg : Cfg) (streams : List Stream) (tv mv : FS) :
    (runOnce cfg streams tv mv).tv =
      (removeEmptyDirs ((processStreams cfg streams tv mv).keep.map lowerStr)
        cfg.limitDelete cfg.tvRoot (processStreams cfg streams tv mv).tv).out := rfl

lemma runOnce_movies (cfg : Cfg) (streams : List Stream) (tv mv : FS) :
    (runOnce cfg streams tv mv).movies =
      (removeEmptyDirs ((processStreams cfg streams tv mv).keep.map lowerStr)
        cfg.limitDelete cfg.moviesRoot
        (processStreams cfg streams tv mv).movies).out := rfl

lemma runOnce_delTv (cfg : Cfg) (streams : List Stream) (tv mv : FS) :
    (runOnce cfg streams tv mv).delTv =
      (removeEmptyDirs ((processStreams cfg streams tv mv).keep.map lowerStr)
        cfg.limitDelete cfg.tvRoot (processStreams cfg streams tv mv).tv).del := rfl

lemma runOnce_delMovies (cfg : Cfg) (streams : List Stream) (tv mv : FS) :
    (runOnce cfg streams tv mv).delMovies =
      (removeEmptyDirs ((processStreams cfg streams tv mv).keep.map lowerStr)
        cfg.limitDelete cfg.moviesRoot
        (processStreams cfg streams tv mv).movies).del := rfl

lemma runOnce_createdDirs (cfg : Cfg) (streams : List Stream) (tv mv : FS) :
    (runOnce cfg streams tv mv).createdDirs =
      (processStreams cfg streams tv mv).createdDirs := rfl

lemma runOnce_removedStrm (cfg : Cfg) (streams : List Stream) (tv mv : FS) :
    (runOnce cfg streams tv mv).removedStrm =
      (removeEmptyDirs ((processStreams cfg streams tv mv).keep.map lowerStr)
        cfg.limitDelete cfg.tvRoot (processStreams cfg streams tv mv).tv).rf +
      (removeEmptyDirs ((processStreams cfg streams tv mv).keep.map lowerStr)
        cfg.limitDelete cfg.moviesRoot
        (processStreams cfg streams tv mv).movies).rf := rfl

lemma processStreams_foldl (cfg : Cfg) (streams : List Stream) (a b : FS) :
    processStreams cfg streams a b = streams.foldl (processStream cfg)
      { tv := a, movies := b, keep := [], createdDirs := 0, keptStrm := 0 } := rfl

/-- C2 (counterexample): with nested pre-existing empty directories
(`movies/a/b`) and an empty catalog, the first run deletes only the deepest
empty directory (`b` — `a` is visited and found nonempty before its
children are pruned), so the second run performs one more empty-directory
deletion, refuting "no additional empty-directory deletions on the second
run". -/
theorem claim_C2_counterexample :
    (runOnce c1cfg [] FS.nil c2movies).removedEmptyDirs = 1 ∧
    (runOnce c1cfg []
      (runOnce c1cfg [] FS.nil c2movies).tv
      (runOnce c1cfg [] FS.nil c2movies).movies).removedEmptyDirs = 1 := by
  decide

/-- C2 (amended): with group structuring disabled and both walks of the
first run finishing strictly under the deletion limit, a second run with
the unchanged catalog performs no directory creations and no stream-file
deletions.  (Empty-directory deletions can recur, as the counterexample
shows.) -/
theorem claim_C2_amended (cfg : Cfg) (streams : List Stream) (tv mv : FS)
    (hg : cfg.useGroup ≠ 1)
    (h1 : ((runOnce cfg streams tv mv).delTv : Int) < cfg.limitDelete)
    (h2 : ((runOnce cfg streams tv mv).delMovies : Int) < cfg.limitDelete) :
    (runOnce cfg streams (runOnce cfg streams tv mv).tv
      (runOnce cfg streams tv mv).movies).createdDirs = 0 ∧
    (runOnce cfg streams (runOnce cfg streams tv mv).tv
      (runOnce cfg streams tv mv).movies).removedStrm = 0 := by
  have hci1 : (processStreams cfg streams tv mv).keep = keepList cfg streams :=
    processStreams_keep cfg streams tv mv hg
  have hci2 : (processStreams cfg streams (runOnce cfg streams tv mv).tv
      (runOnce cfg streams tv mv).movies).keep = keepList cfg streams :=
    processStreams_keep cfg streams _ _ hg
  have hkA : allKept ((keepList cfg streams).map lowerStr) cfg.tvRoot
      (runOnce cfg streams tv mv).tv = true := by
    rw [runOnce_tv, hci1]
    refine removeEmptyDirs_complete _ _ _ _ ?_
    rw [← hci1, ← runOnce_delTv]
    exact h1
  have hkB : allKept ((keepList cfg streams).map lowerStr) cfg.moviesRoot
      (runOnce cfg streams tv mv).movies = true := by
    rw [runOnce_movies, hci1]
    refine removeEmptyDirs_complete _ _ _ _ ?_
    rw [← hci1, ← runOnce_delMovies]
    exact h2
  constructor
  · rw [runOnce_createdDirs, processStreams_foldl]
    rw [fold_noCreate cfg hg streams _ ?_]
    · intro s hs hf
      have hciM : lowerStr (joinSegs (recRoot cfg s)
          (recSegs s ++ [recFname s])) ∈
          (processStreams cfg streams tv mv).keep.map lowerStr := by
        rw [hci1]
        refine List.mem_map_of_mem lowerStr ?_
        refine keepDelta_mem_keepList cfg hs ?_
        simp [keepDelta, hf]
      have hrec := mat_recInv cfg
        ((processStreams cfg streams tv mv).keep.map lowerStr) hg streams
        { tv := tv, movies := mv, keep := [], createdDirs := 0,
          keptStrm := 0 } s hs hf hciM
      by_cases hTV : isTVShow s.tvgName = true
      · rw [if_pos hTV]
        have hinv := hrec.1 hTV
        rw [runOnce_tv]
        exact recInv_pruned _ _ _ _ _ _ hinv
      · rw [if_neg hTV]
        have hinv := hrec.2 (by simpa using hTV)
        rw [runOnce_movies]
        exact recInv_pruned _ _ _ _ _ _ hinv
  · rw [runOnce_removedStrm, hci2]
    have hdel : ∀ s ∈ streams, ∀ q ∈ keepDelta cfg s,
        lowerStr q ∈ (keepList cfg streams).map lowerStr := by
      intro s hs q hq
      exact List.mem_map_of_mem lowerStr (keepDelta_mem_keepList cfg hs hq)
    have hmat := mat_allKept ((keepList cfg streams).map lowerStr) cfg hg
      streams
      { tv := (runOnce cfg streams tv mv).tv,
        movies := (runOnce cfg streams tv mv).movies, keep := [],
        createdDirs := 0, keptStrm := 0 } hdel hkA hkB
    rw [← processStreams_foldl] at hmat
    rw [removeEmptyDirs_allKept_rf _ _ _ _ hmat.1,
      removeEmptyDirs_allKept_rf _ _ _ _ hmat.2]

/-- C2 (witness): the amended claim at the concrete end-to-end scenario
(both walks of the first run finish far below the limit of 25; the second
run creates no directories and deletes no stream files). -/
theorem claim_C2_witness :
    (runOnce c1cfg c1streams (runOnce c1cfg c1streams FS.nil c1movies).tv
      (runOnce c1cfg c1streams FS.nil c1movies).movies).createdDirs = 0 ∧
    (runOnce c1cfg c1streams (runOnce c1cfg c1streams FS.nil c1movies).tv
      (runOnce c1cfg c1streams FS.nil c1movies).movies).removedStrm = 0 :=
  claim_C2_amended c1cfg c1streams FS.nil c1movies (by decide) (by decide)
    (by decide)

end GetSTRM
